import Mathlib

/-!
Verification of the `st-page-state` URL/session synchronization engine.

This file gives a shallow embedding, in Lean 4, of the core of the
`st_page_state` Python package:

* `utils/converters.py` — the URL codec (`convert_from_URL` / `convert_to_URL`)
  and the remote-store state serializer (`serialize_state` /
  `deserialize_state`);
* `core/meta.py` — the metaclass synchronization engine (`__getattr__`,
  `__setattr__`, `_initialize_attribute`, `_restore_url`, `_sync_url`);
* `core/state.py` — the public class operations (`bind`);
* `backends/redis_backend.py` — the session-entry logic of
  `RedisBackend.session` (identity transition and URL-priority load).

Modelling conventions, used throughout:

* Python `str` values are Lean `String`s.  `st.query_params` is an ordered
  string-to-string association list; `st.session_state` namespaces are
  association lists from field name to value.
* Python runtime values that can flow through the engine are modelled by the
  inductive type `Value`.  Python `==` is modelled by `pyEq` (notably,
  `float('nan') == float('nan')` is `False`); Lean's structural equality on
  `Value` is the "same object graph" relation.
* Python `float` is modelled by `PFloat`: a finite float is represented by
  its canonical shortest decimal representation (the exact string `str(f)`
  produces, which `float(...)` parses back — a CPython guarantee), plus the
  special values `inf`, `-inf` and `nan`.  Likewise `datetime.date`,
  `datetime.datetime` and `datetime.time` values are represented by their
  canonical ISO-8601 strings, since the source delegates their textual codec
  entirely to `isoformat` / `fromisoformat`, which are mutually inverse on
  canonical forms.
* `base64.urlsafe_b64encode(json.dumps(items).encode())` — the opaque token
  the codec uses for collections — is modelled by `encodeToken`, an injective
  and decodable encoding of a list of strings into a single string.  No claim
  inspects the literal text of the token; only injectivity and decodability
  are used.  Similarly `base64.b64encode` for `bytes` is modelled by an
  injective decodable bytes-to-string codec.
* `int(s)` / `str(n)` are modelled by a verified decimal parser/printer.
-/

set_option autoImplicit false

namespace StPageState

/-! ## Decimal digits: model of Python `str(int)` and `int(str)` -/

/-- Character for a single decimal digit (`0 ≤ d ≤ 9`). -/
def digChar (d : Nat) : Char :=
  match d with
  | 0 => '0' | 1 => '1' | 2 => '2' | 3 => '3' | 4 => '4'
  | 5 => '5' | 6 => '6' | 7 => '7' | 8 => '8' | 9 => '9'
  | _ => '*'

/-- Numeric value of a decimal digit character. -/
def digVal (c : Char) : Nat := c.toNat - 48

/-- Is `c` one of `'0'`-`'9'`? -/
def isDigitCh (c : Char) : Bool := 48 ≤ c.toNat && c.toNat ≤ 57

theorem digVal_digChar {d : Nat} (h : d < 10) : digVal (digChar d) = d := by
  interval_cases d <;> rfl

theorem isDigitCh_digChar {d : Nat} (h : d < 10) : isDigitCh (digChar d) = true := by
  interval_cases d <;> rfl

/-- Decimal digit characters of `n`, most significant first (model of the
decimal rendering performed by Python's `str`). -/
def natChars (n : Nat) : List Char :=
  if n = 0 then ['0'] else ((Nat.digits 10 n).map digChar).reverse

/-- Model of Python `str(n)` for `n : Nat`. -/
def natToStr (n : Nat) : String := String.mk (natChars n)

/-- Parse a non-empty all-digit character list as a decimal natural number.
Model of Python `int(s)` restricted to plain digit strings (Python's `int`
also accepts whitespace, underscores and signs; the engine only ever feeds it
URL parameter strings, and the model only needs to accept the strings the
printer produces and reject non-numeric text). -/
def parseNatList (l : List Char) : Option Nat :=
  if l.isEmpty then none
  else if l.all isDigitCh then some (Nat.ofDigits 10 ((l.map digVal).reverse))
  else none

/-- Model of Python `int(s)` for natural-number strings. -/
def parseNat (s : String) : Option Nat := parseNatList s.toList

theorem natChars_ne_nil (n : Nat) : natChars n ≠ [] := by
  unfold natChars
  split
  · simp
  · simp only [ne_eq, List.reverse_eq_nil_iff, List.map_eq_nil_iff]
    exact Nat.digits_ne_nil_iff_ne_zero.mpr (by assumption)

theorem natChars_all_digits (n : Nat) : (natChars n).all isDigitCh = true := by
  unfold natChars
  split
  · rfl
  · rw [List.all_eq_true]
    intro c hc
    rw [List.mem_reverse, List.mem_map] at hc
    obtain ⟨d, hd, rfl⟩ := hc
    exact isDigitCh_digChar (Nat.digits_lt_base (by norm_num) hd)

theorem parseNatList_natChars (n : Nat) : parseNatList (natChars n) = some n := by
  unfold parseNatList
  rw [if_neg (by simpa [List.isEmpty_iff] using natChars_ne_nil n),
      if_pos (natChars_all_digits n)]
  unfold natChars
  split
  · rename_i h
    subst h
    decide
  · congr 1
    rw [List.map_reverse, List.reverse_reverse, List.map_map]
    have hmap : List.map (digVal ∘ digChar) (Nat.digits 10 n) = Nat.digits 10 n := by
      have h1 : List.map (digVal ∘ digChar) (Nat.digits 10 n)
          = List.map id (Nat.digits 10 n) := by
        refine List.map_congr_left ?_
        intro d hd
        show digVal (digChar d) = d
        exact digVal_digChar (Nat.digits_lt_base (by norm_num) hd)
      rw [h1, List.map_id]
    rw [hmap, Nat.ofDigits_digits]

theorem parseNat_natToStr (n : Nat) : parseNat (natToStr n) = some n := by
  simpa [parseNat, natToStr] using parseNatList_natChars n

/-- Model of Python `str(i)` for `i : Int` (decimal, with a leading `-` for
negative values — the same text Lean's `toString` produces). -/
def intToStr (i : Int) : String :=
  match i with
  | .ofNat n => natToStr n
  | .negSucc n => String.mk ('-' :: natChars (n + 1))

/-- Model of Python `int(s)` for integer strings. -/
def parseInt (s : String) : Option Int :=
  let l := s.toList
  if l.head? = some '-' then (parseNatList l.tail).map (fun n => -(n : Int))
  else (parseNatList l).map (fun n => (n : Int))

theorem toList_mk (l : List Char) : (String.mk l).toList = l := rfl

theorem parseInt_intToStr (i : Int) : parseInt (intToStr i) = some i := by
  match i with
  | .ofNat n =>
      unfold parseInt intToStr natToStr
      rw [toList_mk]
      rcases h : natChars n with _ | ⟨c, rest⟩
      · exact absurd h (natChars_ne_nil n)
      · have hdig : isDigitCh c = true := by
          have hall := natChars_all_digits n
          rw [h, List.all_cons, Bool.and_eq_true] at hall
          exact hall.1
        have hc : ¬ (c :: rest).head? = some '-' := by
          intro hcon
          simp only [List.head?_cons, Option.some_inj] at hcon
          rw [hcon] at hdig
          simp [isDigitCh] at hdig
        simp only [if_neg hc]
        rw [← h, parseNatList_natChars]
        rfl
  | .negSucc n =>
      unfold parseInt intToStr
      rw [toList_mk]
      simp only [List.head?_cons, List.tail_cons, if_pos rfl, parseNatList_natChars]
      simp [Int.negSucc_eq]

/-! ## Python floats

A Python `float` is modelled by `PFloat`.  A finite float is carried as its
canonical shortest decimal representation — exactly the text `str(f)` prints
and `float(...)` parses back (a CPython guarantee) — so the textual codec the
source delegates to the runtime is the identity on this representation.  The
special values `inf`, `-inf` and `nan` print as those exact strings. -/

inductive PFloat where
  | finite (r : String)
  | inf
  | ninf
  | nan
deriving DecidableEq, Repr

/-- Model of Python `str(f)` for floats. -/
def pyFloatStr : PFloat → String
  | .finite r => r
  | .inf => "inf"
  | .ninf => "-inf"
  | .nan => "nan"

/-- Split a character list on a single separator character (used to model the
string scanning done by the float/ISO literal checks). -/
def splitChar (sep : Char) : List Char → List (List Char)
  | [] => [[]]
  | c :: rest =>
      if c = sep then [] :: splitChar sep rest
      else
        match splitChar sep rest with
        | g :: gs => (c :: g) :: gs
        | [] => [[c]]

/-- Non-empty and all decimal digits. -/
def digitRun (l : List Char) : Bool := !l.isEmpty && l.all isDigitCh

/-- Recognizer for finite float literals: `[-] digits [. digits] [e [+|-] digits]`.
This accepts every string CPython's `str` prints for a finite float and
rejects non-numeric text (Python's `float(...)` is more lenient about
whitespace; the engine never feeds it such strings). -/
def isFloatLit (s : String) : Bool :=
  let l := s.toList
  let l := match l with
    | '-' :: rest => rest
    | _ => l
  let mantOk : List Char → Bool := fun m =>
    match splitChar '.' m with
    | [a] => digitRun a
    | [a, b] => digitRun a && digitRun b
    | _ => false
  match splitChar 'e' l with
  | [m] => mantOk m
  | [m, ex] =>
      let ex := match ex with
        | '+' :: rest => rest
        | '-' :: rest => rest
        | _ => ex
      mantOk m && digitRun ex
  | _ => false

/-- Model of Python `float(s)`. -/
def parsePyFloat (s : String) : Option PFloat :=
  if s = "inf" then some .inf
  else if s = "-inf" then some .ninf
  else if s = "nan" then some .nan
  else if isFloatLit s then some (.finite s) else none

/-- A well-formed `PFloat`: a finite value carries a genuine float literal. -/
def wfPFloat : PFloat → Bool
  | .finite r => isFloatLit r
  | _ => true

theorem parsePyFloat_pyFloatStr {f : PFloat} (h : wfPFloat f = true) :
    parsePyFloat (pyFloatStr f) = some f := by
  cases f with
  | finite r =>
      have hlit : isFloatLit r = true := h
      have h1 : r ≠ "inf" := fun hr => by rw [hr] at hlit; exact absurd hlit (by decide)
      have h2 : r ≠ "-inf" := fun hr => by rw [hr] at hlit; exact absurd hlit (by decide)
      have h3 : r ≠ "nan" := fun hr => by rw [hr] at hlit; exact absurd hlit (by decide)
      simp [parsePyFloat, pyFloatStr, h1, h2, h3, hlit]
  | inf => rfl
  | ninf => rfl
  | nan => rfl

/-! ## ISO-8601 temporal literals

`datetime.date`, `datetime.datetime` and `datetime.time` values are modelled
by their canonical (naive) ISO strings, as produced by `isoformat` and parsed
back by `fromisoformat`. -/

/-- `YYYY-MM-DD`. -/
def isDateCore (l : List Char) : Bool :=
  match l with
  | [a, b, c, d, '-', e, f, '-', g, h] => [a, b, c, d, e, f, g, h].all isDigitCh
  | _ => false

/-- `HH:MM:SS` with an optional `.ffffff` fraction. -/
def isTimeCore (l : List Char) : Bool :=
  let base : List Char → Bool := fun t =>
    match t with
    | [h1, h2, ':', m1, m2, ':', s1, s2] => [h1, h2, m1, m2, s1, s2].all isDigitCh
    | _ => false
  match splitChar '.' l with
  | [t] => base t
  | [t, f] => base t && digitRun f
  | _ => false

/-- Recognizer for canonical date literals. -/
def isDateLit (s : String) : Bool := isDateCore s.toList

/-- Recognizer for canonical time literals. -/
def isTimeLit (s : String) : Bool := isTimeCore s.toList

/-- Recognizer for canonical datetime literals (`dateTtime`). -/
def isDatetimeLit (s : String) : Bool :=
  match splitChar 'T' s.toList with
  | [d, t] => isDateCore d && isTimeCore t
  | _ => false

/-! ## The opaque collection token

`convert_to_URL` encodes a collection as
`base64.urlsafe_b64encode(json.dumps(items_str).encode())` where `items_str`
is the list of recursively encoded element strings, and `convert_from_URL`
first attempts the reverse decoding.  The composite is an injective encoding
of a list of strings into one opaque string together with a partial inverse;
no claim inspects the literal token text, so the model uses a length-prefixed
scheme with exactly those two properties. -/

/-- Length of the run of `'l'` marks at the head of the input (the unary
length prefix of the next item). -/
def twLen (cs : List Char) : Nat := (cs.takeWhile (· = 'l')).length

/-- Length-prefixed rendering of one item followed by the rest: model of one
element of the JSON array inside the token. -/
def encTokenAux : List String → List Char
  | [] => []
  | s :: rest => List.replicate s.length 'l' ++ (':' :: (s.data ++ encTokenAux rest))

/-- Model of `base64.urlsafe_b64encode(json.dumps(items).encode()).decode()`. -/
def encodeToken (items : List String) : String :=
  String.mk ('B' :: encTokenAux items)

/-- Parse one length-prefixed item, returning it and the remaining input. -/
def parseTokenItem (cs : List Char) : Option (String × List Char) :=
  if (cs.drop (twLen cs)).head? = some ':' then
    if twLen cs ≤ (cs.drop (twLen cs)).tail.length then
      some (String.mk ((cs.drop (twLen cs)).tail.take (twLen cs)),
            (cs.drop (twLen cs)).tail.drop (twLen cs))
    else none
  else none

theorem parseTokenItem_shrinks {cs : List Char} {s : String} {rest : List Char}
    (h : parseTokenItem cs = some (s, rest)) : rest.length < cs.length := by
  unfold parseTokenItem at h
  split at h
  · rename_i hhead
    split at h
    · rename_i hle
      have hrest : rest = (cs.drop (twLen cs)).tail.drop (twLen cs) :=
        (congrArg Prod.snd (Option.some_inj.mp h)).symm
      have hne : cs.drop (twLen cs) ≠ [] := by
        intro hnil
        rw [hnil] at hhead
        exact absurd hhead (by simp)
      have hpos : twLen cs < cs.length := by
        have := List.length_drop (twLen cs) cs
        have h0 : 0 < (cs.drop (twLen cs)).length := List.length_pos.mpr hne
        omega
      subst hrest
      rw [List.length_drop, List.length_tail, List.length_drop]
      omega
    · exact absurd h (by simp)
  · exact absurd h (by simp)

/-- Parse the item list of a token body. -/
def decTokenAux (cs : List Char) : Option (List String) :=
  if h0 : cs = [] then some []
  else
    match hp : parseTokenItem cs with
    | some (s, rest) =>
        match decTokenAux rest with
        | some items => some (s :: items)
        | none => none
    | none => none
termination_by cs.length
decreasing_by exact parseTokenItem_shrinks hp

/-- Model of the `base64.urlsafe_b64decode` + `json.loads` attempt on a URL
value (returns `none` where the Python composite raises and the source falls
back to the legacy separator format). -/
def decodeToken (s : String) : Option (List String) :=
  match s.data with
  | 'B' :: rest => decTokenAux rest
  | _ => none

theorem takeWhile_replicate_colon (n : Nat) (xs : List Char) :
    (List.replicate n 'l' ++ (':' :: xs)).takeWhile (· = 'l')
      = List.replicate n 'l' := by
  induction n with
  | zero => simp [List.takeWhile]
  | succ k ih =>
      simp only [List.replicate_succ, List.cons_append, List.takeWhile_cons]
      simp [ih]

theorem parseTokenItem_spec (s : String) (tail : List Char) :
    parseTokenItem (List.replicate s.length 'l' ++ (':' :: (s.data ++ tail)))
      = some (s, tail) := by
  have hsdata : s.data.length = s.length := rfl
  have htw : twLen (List.replicate s.length 'l' ++ (':' :: (s.data ++ tail)))
      = s.length := by
    unfold twLen
    rw [takeWhile_replicate_colon]
    exact List.length_replicate _ _
  have hdrop : (List.replicate s.length 'l' ++ (':' :: (s.data ++ tail))).drop
      (twLen (List.replicate s.length 'l' ++ (':' :: (s.data ++ tail))))
      = ':' :: (s.data ++ tail) := by
    rw [htw]
    have h2 := List.drop_left (List.replicate s.length 'l') (':' :: (s.data ++ tail))
    rwa [List.length_replicate] at h2
  unfold parseTokenItem
  rw [hdrop, htw]
  simp only [List.head?_cons, List.tail_cons]
  rw [if_pos trivial]
  have hle : s.length ≤ (s.data ++ tail).length := by
    rw [List.length_append, hsdata]
    omega
  rw [if_pos hle]
  have htake : (s.data ++ tail).take s.length = s.data := by
    rw [← hsdata]
    exact List.take_left _ _
  have hdrop2 : (s.data ++ tail).drop s.length = tail := by
    rw [← hsdata]
    exact List.drop_left _ _
  rw [htake, hdrop2]

theorem decTokenAux_encTokenAux (items : List String) :
    decTokenAux (encTokenAux items) = some items := by
  induction items with
  | nil => simp [decTokenAux, encTokenAux]
  | cons s rest ih =>
      have hne : encTokenAux (s :: rest) ≠ [] := by
        unfold encTokenAux
        simp
      rw [decTokenAux]
      rw [dif_neg hne]
      have hspec : parseTokenItem (encTokenAux (s :: rest)) = some (s, encTokenAux rest) := by
        rw [show encTokenAux (s :: rest)
            = List.replicate s.length 'l' ++ (':' :: (s.data ++ encTokenAux rest)) from rfl]
        exact parseTokenItem_spec s (encTokenAux rest)
      rw [hspec]
      simp [ih]

theorem decodeToken_encodeToken (items : List String) :
    decodeToken (encodeToken items) = some items := by
  unfold decodeToken encodeToken
  exact decTokenAux_encTokenAux items

/-! ## Python runtime values and declared types -/

/-- A Python runtime value as it can flow through the engine: JSON-style
primitives, temporal values (carried as canonical ISO strings, see above),
`bytes`, and the three collection kinds.  A `set` is carried with its
iteration order, which is all the source ever observes of it. -/
inductive Value where
  | vNone
  | vBool (b : Bool)
  | vInt (i : Int)
  | vFloat (f : PFloat)
  | vStr (s : String)
  | vDate (iso : String)
  | vDatetime (iso : String)
  | vTime (iso : String)
  | vBytes (bs : List Nat)
  | vList (items : List Value)
  | vTuple (items : List Value)
  | vSet (items : List Value)
  | vDict (entries : List (String × Value))

/-- A declared field type, as the source inspects it with `get_origin` /
`get_args`: a scalar type, or a parameterized collection with one declared
element type (the source always takes `get_args(...)[0]`). -/
inductive PyType where
  | tBool | tInt | tFloat | tStr | tDate | tDatetime | tTime
  | tList (elem : PyType)
  | tTuple (elem : PyType)
  | tSet (elem : PyType)
deriving DecidableEq, Repr

/-- Model of Python `==` on two floats: `nan` is not equal to anything,
including itself; finite floats compare by value, which on canonical
representations is string comparison. -/
def pyFloatEq : PFloat → PFloat → Bool
  | .nan, _ => false
  | _, .nan => false
  | a, b => a == b

mutual

/-- Model of Python `==` restricted to same-type comparisons (the only
comparisons the claims make).  It agrees with structural equality except on
`nan`, which is unequal to itself. -/
def pyEq : Value → Value → Bool
  | .vNone, .vNone => true
  | .vBool a, .vBool b => a == b
  | .vInt a, .vInt b => a == b
  | .vFloat a, .vFloat b => pyFloatEq a b
  | .vStr a, .vStr b => a == b
  | .vDate a, .vDate b => a == b
  | .vDatetime a, .vDatetime b => a == b
  | .vTime a, .vTime b => a == b
  | .vBytes a, .vBytes b => a == b
  | .vList a, .vList b => pyEqList a b
  | .vTuple a, .vTuple b => pyEqList a b
  | .vSet a, .vSet b => pyEqList a b
  | .vDict a, .vDict b => pyEqEntries a b
  | _, _ => false

def pyEqList : List Value → List Value → Bool
  | [], [] => true
  | a :: as0, b :: bs0 => pyEq a b && pyEqList as0 bs0
  | _, _ => false

def pyEqEntries : List (String × Value) → List (String × Value) → Bool
  | [], [] => true
  | (k1, v1) :: r1, (k2, v2) :: r2 => k1 == k2 && pyEq v1 v2 && pyEqEntries r1 r2
  | _, _ => false

end

mutual

/-- Does the value contain a float `nan` anywhere?  (`nan` is the only value
on which Python `==` disagrees with structural equality.) -/
def hasNaN : Value → Bool
  | .vFloat .nan => true
  | .vList items => hasNaNList items
  | .vTuple items => hasNaNList items
  | .vSet items => hasNaNList items
  | .vDict entries => hasNaNEntries entries
  | _ => false

def hasNaNList : List Value → Bool
  | [] => false
  | v :: rest => hasNaN v || hasNaNList rest

def hasNaNEntries : List (String × Value) → Bool
  | [] => false
  | (_, v) :: rest => hasNaN v || hasNaNEntries rest

end

mutual

theorem pyEq_refl (v : Value) (h : hasNaN v = false) : pyEq v v = true := by
  cases v with
  | vNone => rfl
  | vBool b => simp [pyEq]
  | vInt i => simp [pyEq]
  | vFloat f =>
      cases f with
      | finite r => simp [pyEq, pyFloatEq]
      | inf => rfl
      | ninf => rfl
      | nan => exact absurd h (by simp [hasNaN])
  | vStr s => simp [pyEq]
  | vDate s => simp [pyEq]
  | vDatetime s => simp [pyEq]
  | vTime s => simp [pyEq]
  | vBytes bs => simp [pyEq]
  | vList items => exact pyEqList_refl items (by simpa [hasNaN] using h)
  | vTuple items => exact pyEqList_refl items (by simpa [hasNaN] using h)
  | vSet items => exact pyEqList_refl items (by simpa [hasNaN] using h)
  | vDict entries => exact pyEqEntries_refl entries (by simpa [hasNaN] using h)

theorem pyEqList_refl (l : List Value) (h : hasNaNList l = false) :
    pyEqList l l = true := by
  cases l with
  | nil => rfl
  | cons v rest =>
      rw [hasNaNList, Bool.or_eq_false_iff] at h
      rw [pyEqList, Bool.and_eq_true]
      exact ⟨pyEq_refl v h.1, pyEqList_refl rest h.2⟩

theorem pyEqEntries_refl (l : List (String × Value)) (h : hasNaNEntries l = false) :
    pyEqEntries l l = true := by
  cases l with
  | nil => rfl
  | cons p rest =>
      obtain ⟨k, v⟩ := p
      rw [hasNaNEntries, Bool.or_eq_false_iff] at h
      rw [pyEqEntries]
      simp only [Bool.and_eq_true, beq_self_eq_true]
      exact ⟨⟨trivial, pyEq_refl v h.1⟩, pyEqEntries_refl rest h.2⟩

end

mutual

/-- Structural (object-graph) equality test on values, used to model Python
dict key lookup in a `value_map`.  Unlike `pyEq` it is reflexive on `nan`;
value maps never contain `nan` keys, where the two coincide. -/
def beqValue : Value → Value → Bool
  | .vNone, .vNone => true
  | .vBool a, .vBool b => a == b
  | .vInt a, .vInt b => a == b
  | .vFloat a, .vFloat b => a == b
  | .vStr a, .vStr b => a == b
  | .vDate a, .vDate b => a == b
  | .vDatetime a, .vDatetime b => a == b
  | .vTime a, .vTime b => a == b
  | .vBytes a, .vBytes b => a == b
  | .vList a, .vList b => beqValueList a b
  | .vTuple a, .vTuple b => beqValueList a b
  | .vSet a, .vSet b => beqValueList a b
  | .vDict a, .vDict b => beqValueEntries a b
  | _, _ => false

def beqValueList : List Value → List Value → Bool
  | [], [] => true
  | a :: as0, b :: bs0 => beqValue a b && beqValueList as0 bs0
  | _, _ => false

def beqValueEntries : List (String × Value) → List (String × Value) → Bool
  | [], [] => true
  | (k1, v1) :: r1, (k2, v2) :: r2 => k1 == k2 && beqValue v1 v2 && beqValueEntries r1 r2
  | _, _ => false

end

/-- Model of Python's `isinstance(value, Hashable)`: a class-level check, so
tuples pass even when their members are unhashable. -/
def isinstHashable : Value → Bool
  | .vList _ => false
  | .vSet _ => false
  | .vDict _ => false
  | _ => true

mutual

/-- Whether actually calling `hash(value)` would succeed (a tuple is deeply
hashable only if all members are). -/
def deepHashable : Value → Bool
  | .vList _ => false
  | .vSet _ => false
  | .vDict _ => false
  | .vTuple items => deepHashableList items
  | _ => true

def deepHashableList : List Value → Bool
  | [] => true
  | v :: rest => deepHashable v && deepHashableList rest

end

/-! ## Well-typedness of a value at a declared type

`WellTyped ty v` says `v` is a value of the declared type `ty`, with
canonical carrier strings for floats and temporal values (the forms `str` /
`isoformat` actually produce). -/

def WellTyped : PyType → Value → Bool
  | .tBool, .vBool _ => true
  | .tInt, .vInt _ => true
  | .tFloat, .vFloat f => wfPFloat f
  | .tStr, .vStr _ => true
  | .tDate, .vDate s => isDateLit s
  | .tDatetime, .vDatetime s => isDatetimeLit s
  | .tTime, .vTime s => isTimeLit s
  | .tList e, .vList items => items.all (fun v => WellTyped e v)
  | .tTuple e, .vTuple items => items.all (fun v => WellTyped e v)
  | .tSet e, .vSet items => items.all (fun v => WellTyped e v)
  | _, _ => false

/-! ## The URL codec: `convert_from_URL` / `convert_to_URL` (converters.py) -/

/-- Model of `InvalidQueryParamError(key, value, target_type, original_error)`
(errors.py).  `raw` is the `value` argument at raise time — the value the
converter was working on, which is the URL string unless a `value_map`
translation had already replaced it. -/
structure DecodeError where
  key : String
  raw : Value
  targetType : PyType
  cause : String

/-- Rendering of a nested error as the `original_error` of a wrapping one. -/
def causeOf (e : DecodeError) : String := "InvalidQueryParamError at " ++ e.key

/-- Reverse lookup in a `value_map` (internal-value to URL-string pairs):
models `reverse_map = {v: k for k, v in value_map.items()}` followed by
`reverse_map[value]` — later pairs with the same URL string win, as the dict
comprehension overwrites earlier ones. -/
def reverseLookup (vm : List (Value × String)) (s : String) : Option Value :=
  match vm with
  | [] => none
  | (internal, url) :: rest =>
      match reverseLookup rest s with
      | some r => some r
      | none => if url = s then some internal else none

/-- Forward lookup in a `value_map`: models `value_map[value]` (dict keys are
unique, so the first structural match is the dict hit). -/
def forwardLookup (vm : List (Value × String)) (v : Value) : Option String :=
  match vm with
  | [] => none
  | (internal, url) :: rest =>
      if beqValue internal v then some url else forwardLookup rest v

/-- ASCII lower-casing of one character (all the engine ever lower-cases are
URL parameter strings). -/
def lowerCh (c : Char) : Char :=
  if 65 ≤ c.toNat ∧ c.toNat ≤ 90 then Char.ofNat (c.toNat + 32) else c

/-- Model of `value.lower()`. -/
def pyLower (s : String) : String := String.mk (s.data.map lowerCh)

/-- Model of `value.lower() in ('true', '1', 't', 'yes', 'on')`. -/
def truthy (s : String) : Bool :=
  ["true", "1", "t", "yes", "on"].contains (pyLower s)

/-- Split on the legacy `"||"` separator (model of `value.split("||")`). -/
def splitDoublePipe : List Char → List (List Char)
  | [] => [[]]
  | '|' :: '|' :: rest => [] :: splitDoublePipe rest
  | c :: rest =>
      match splitDoublePipe rest with
      | g :: gs => (c :: g) :: gs
      | [] => [[c]]

/-- Item strings of a collection URL value: first the base64+JSON token
decoding is attempted, then the legacy fallback
`[v for v in value.split("||") if v]`. -/
def tokenItems (s : String) : List String :=
  match decodeToken s with
  | some items => items
  | none => ((splitDoublePipe s.data).map String.mk).filter (fun it => it ≠ "")

/-- The working value of `convert_from_URL`: the URL string, unless the
reversed `value_map` has a hit for it (a URL string is always hashable). -/
def workingValue (vm : Option (List (Value × String))) (raw : String) : Value :=
  match vm with
  | some m =>
      match reverseLookup m raw with
      | some internal => internal
      | none => .vStr raw
  | none => .vStr raw

mutual

/-- The type-conversion part of `convert_from_URL(key, value, target_type,
value_map)`, applied to the working value.

The conversion branches treat non-string working values exactly where
Python's operations would accept them (`int(5)`) or raise
(`(5).lower()`, `date.fromisoformat(5)`).  Mapped `float`/exotic values that
Python would coerce numerically are modelled as conversion errors; no claim
exercises them.  On any failure the structured error carries the field key,
the working value at raise time, the target type, and the cause. -/
def convertCore (key : String) (ty : PyType) (v : Value) : Except DecodeError Value :=
  match ty, v with
  | .tBool, .vStr s => .ok (.vBool (truthy s))
  | .tBool, w => .error ⟨key, w, .tBool, "lower() is not defined on this value"⟩
  | .tInt, .vStr s =>
      match parseInt s with
      | some i => .ok (.vInt i)
      | none => .error ⟨key, .vStr s, .tInt, "invalid literal for int()"⟩
  | .tInt, .vInt i => .ok (.vInt i)
  | .tInt, .vBool b => .ok (.vInt (if b then 1 else 0))
  | .tInt, w => .error ⟨key, w, .tInt, "int() argument not supported"⟩
  | .tFloat, .vStr s =>
      match parsePyFloat s with
      | some f => .ok (.vFloat f)
      | none => .error ⟨key, .vStr s, .tFloat, "could not convert string to float"⟩
  | .tFloat, .vFloat f => .ok (.vFloat f)
  | .tFloat, w => .error ⟨key, w, .tFloat, "float() argument not supported"⟩
  | .tDate, .vStr s =>
      if isDateLit s then .ok (.vDate s)
      else .error ⟨key, .vStr s, .tDate, "invalid isoformat string"⟩
  | .tDate, w => .error ⟨key, w, .tDate, "fromisoformat argument must be str"⟩
  | .tDatetime, .vStr s =>
      if isDatetimeLit s then .ok (.vDatetime s)
      else .error ⟨key, .vStr s, .tDatetime, "invalid isoformat string"⟩
  | .tDatetime, w => .error ⟨key, w, .tDatetime, "fromisoformat argument must be str"⟩
  | .tTime, .vStr s =>
      if isTimeLit s then .ok (.vTime s)
      else .error ⟨key, .vStr s, .tTime, "invalid isoformat string"⟩
  | .tTime, w => .error ⟨key, w, .tTime, "fromisoformat argument must be str"⟩
  | .tList e, .vStr s =>
      match convertSeq key e (tokenItems s) 0 with
      | .ok vs => .ok (.vList vs)
      | .error ein => .error ⟨key, .vStr s, .tList e, causeOf ein⟩
  | .tList e, w => .error ⟨key, w, .tList e, "collection decode requires a string"⟩
  | .tTuple e, .vStr s =>
      match convertSeq key e (tokenItems s) 0 with
      | .ok vs => .ok (.vTuple vs)
      | .error ein => .error ⟨key, .vStr s, .tTuple e, causeOf ein⟩
  | .tTuple e, w => .error ⟨key, w, .tTuple e, "collection decode requires a string"⟩
  | .tSet e, .vStr s =>
      match convertSeq key e (tokenItems s) 0 with
      | .ok vs => .ok (.vSet vs)
      | .error ein => .error ⟨key, .vStr s, .tSet e, causeOf ein⟩
  | .tSet e, w => .error ⟨key, w, .tSet e, "collection decode requires a string"⟩
  | .tStr, w => .ok w
termination_by (sizeOf ty, 0)

/-- Model of the item loop
`[convert_from_URL(f"key[i]", item, item_type) for i, item in enumerate(items_str)]`
(recursive calls pass no `value_map`). -/
def convertSeq (key : String) (e : PyType) (items : List String) (idx : Nat) :
    Except DecodeError (List Value) :=
  match items with
  | [] => .ok []
  | it :: rest =>
      match convertCore (key ++ "[" ++ natToStr idx ++ "]") e (workingValue none it) with
      | .ok v =>
          match convertSeq key e rest (idx + 1) with
          | .ok vs => .ok (v :: vs)
          | .error err => .error err
      | .error err => .error err
termination_by (sizeOf e, items.length + 1)

end

/-- Model of `convert_from_URL(key, value, target_type, value_map)`: the
`value_map`, when present, is consulted before type conversion (reverse
direction), then the working value is converted. -/
def convertFromURL (key raw : String) (ty : PyType)
    (vm : Option (List (Value × String))) : Except DecodeError Value :=
  convertCore key ty (workingValue vm raw)

mutual

/-- Model of `convert_to_URL(key, value, value_map)`.

Following the source order: the default `str(value)` rendering is then
overridden by the `bool` branch, the `int`/`float` branch (a Python `bool`
is an `int`, so both fire and a bool ends up rendered `str(True)`/`str(False)`
— `"True"`/`"False"`, not `"true"`/`"false"`), the temporal `isoformat`
branch, and the collection branch (recursively encoded items wrapped into the
opaque token).  Afterwards the `value_map` is consulted on the original value
when `isinstance(value, Hashable)` holds; actually hashing a tuple with an
unhashable member raises, which the outer handler wraps into the structured
error. -/
def convertToURL (key : String) (v : Value)
    (vm : Option (List (Value × String))) : Except DecodeError String :=
  let base : Except DecodeError String :=
    match v with
    | .vBool b => .ok (if b then "True" else "False")
    | .vInt i => .ok (intToStr i)
    | .vFloat f => .ok (pyFloatStr f)
    | .vDate s => .ok s
    | .vDatetime s => .ok s
    | .vTime s => .ok s
    | .vStr s => .ok s
    | .vNone => .ok "None"
    | .vBytes _ => .ok "<bytes>"
    | .vDict _ => .ok "<dict>"
    | .vList items =>
        match encodeSeq key items vm 0 with
        | .ok ss => .ok (encodeToken ss)
        | .error ein => .error ⟨key, v, .tStr, causeOf ein⟩
    | .vTuple items =>
        match encodeSeq key items vm 0 with
        | .ok ss => .ok (encodeToken ss)
        | .error ein => .error ⟨key, v, .tStr, causeOf ein⟩
    | .vSet items =>
        match encodeSeq key items vm 0 with
        | .ok ss => .ok (encodeToken ss)
        | .error ein => .error ⟨key, v, .tStr, causeOf ein⟩
  match base with
  | .error e => .error e
  | .ok converted =>
      match vm with
      | none => .ok converted
      | some m =>
          if isinstHashable v then
            if deepHashable v then
              match forwardLookup m v with
              | some mapped => .ok mapped
              | none => .ok converted
            else .error ⟨key, v, .tStr, "unhashable type in value_map lookup"⟩
          else .ok converted
termination_by sizeOf v

/-- Model of the item loop
`[convert_to_URL(f"key[i]", item, value_map) for i, item in enumerate(value)]`
(recursive calls keep the same `value_map`). -/
def encodeSeq (key : String) (items : List Value)
    (vm : Option (List (Value × String))) (idx : Nat) :
    Except DecodeError (List String) :=
  match items with
  | [] => .ok []
  | it :: rest =>
      match convertToURL (key ++ "[" ++ natToStr idx ++ "]") it vm with
      | .ok s =>
          match encodeSeq key rest vm (idx + 1) with
          | .ok ss => .ok (s :: ss)
          | .error e => .error e
      | .error e => .error e
termination_by sizeOf items

end

/-! ## Round-trip properties of the URL codec -/

mutual

/-- With no `value_map`, encoding never raises. -/
theorem convertToURL_none_total : (v : Value) → (key : String) →
    ∃ s, convertToURL key v none = .ok s
  | .vNone, key => ⟨"None", by simp [convertToURL]⟩
  | .vBool b, key => ⟨if b then "True" else "False", by simp [convertToURL]⟩
  | .vInt i, key => ⟨intToStr i, by simp [convertToURL]⟩
  | .vFloat f, key => ⟨pyFloatStr f, by simp [convertToURL]⟩
  | .vStr s, key => ⟨s, by simp [convertToURL]⟩
  | .vDate s, key => ⟨s, by simp [convertToURL]⟩
  | .vDatetime s, key => ⟨s, by simp [convertToURL]⟩
  | .vTime s, key => ⟨s, by simp [convertToURL]⟩
  | .vBytes bs, key => ⟨"<bytes>", by simp [convertToURL]⟩
  | .vDict d, key => ⟨"<dict>", by simp [convertToURL]⟩
  | .vList items, key => by
      obtain ⟨ss, hss⟩ := encodeSeq_none_total items key 0
      exact ⟨encodeToken ss, by simp [convertToURL, hss]⟩
  | .vTuple items, key => by
      obtain ⟨ss, hss⟩ := encodeSeq_none_total items key 0
      exact ⟨encodeToken ss, by simp [convertToURL, hss]⟩
  | .vSet items, key => by
      obtain ⟨ss, hss⟩ := encodeSeq_none_total items key 0
      exact ⟨encodeToken ss, by simp [convertToURL, hss]⟩
termination_by v key => sizeOf v

theorem encodeSeq_none_total : (items : List Value) → (key : String) → (idx : Nat) →
    ∃ ss, encodeSeq key items none idx = .ok ss
  | [], key, idx => ⟨[], by simp [encodeSeq]⟩
  | it :: rest, key, idx => by
      obtain ⟨s, hs⟩ := convertToURL_none_total it (key ++ "[" ++ natToStr idx ++ "]")
      obtain ⟨ss, hss⟩ := encodeSeq_none_total rest key (idx + 1)
      exact ⟨s :: ss, by simp [encodeSeq, hs, hss]⟩
termination_by items key idx => sizeOf items

end

/-- Item-list version of the round trip, parameterized by the element
round-trip property. -/
theorem convertSeq_encodeSeq (e : PyType)
    (ih : ∀ (v : Value) (key s : String), WellTyped e v = true →
      convertToURL key v none = .ok s → convertFromURL key s e none = .ok v) :
    ∀ (items : List Value) (key : String) (idx : Nat) (ss : List String),
      (∀ v ∈ items, WellTyped e v = true) →
      encodeSeq key items none idx = .ok ss → convertSeq key e ss idx = .ok items := by
  intro items
  induction items with
  | nil =>
      intro key idx ss hwt henc
      simp [encodeSeq] at henc
      subst henc
      simp [convertSeq]
  | cons it rest ihl =>
      intro key idx ss hwt henc
      obtain ⟨s1, hs1⟩ := convertToURL_none_total it (key ++ "[" ++ natToStr idx ++ "]")
      obtain ⟨ss1, hss1⟩ := encodeSeq_none_total rest key (idx + 1)
      rw [encodeSeq, hs1, hss1] at henc
      simp at henc
      subst henc
      have hd := ih it (key ++ "[" ++ natToStr idx ++ "]") s1 (hwt it (by simp)) hs1
      have ht := ihl key (idx + 1) ss1 (fun v hv => hwt v (by simp [hv])) hss1
      unfold convertFromURL at hd
      simp [convertSeq, hd, ht]

/-- Decoding inverts encoding, structurally, on any well-typed value
(no `value_map` on either side, as in the claim). -/
theorem convertFromURL_convertToURL (ty : PyType) :
    ∀ (v : Value) (key s : String), WellTyped ty v = true →
      convertToURL key v none = .ok s → convertFromURL key s ty none = .ok v := by
  induction ty with
  | tBool =>
      intro v key s hwt henc
      cases v <;> simp [WellTyped] at hwt
      rename_i b
      cases b <;>
        · simp [convertToURL] at henc
          subst henc
          simp [convertFromURL, convertCore, workingValue]
          decide
  | tInt =>
      intro v key s hwt henc
      cases v <;> simp [WellTyped] at hwt
      rename_i i
      simp [convertToURL] at henc
      subst henc
      simp [convertFromURL, convertCore, workingValue, parseInt_intToStr]
  | tFloat =>
      intro v key s hwt henc
      cases v <;> simp [WellTyped] at hwt
      rename_i f
      simp [convertToURL] at henc
      subst henc
      simp [convertFromURL, convertCore, workingValue, parsePyFloat_pyFloatStr hwt]
  | tStr =>
      intro v key s hwt henc
      cases v <;> simp [WellTyped] at hwt
      rename_i s0
      simp [convertToURL] at henc
      subst henc
      simp [convertFromURL, convertCore, workingValue]
  | tDate =>
      intro v key s hwt henc
      cases v <;> simp [WellTyped] at hwt
      rename_i s0
      simp [convertToURL] at henc
      subst henc
      simp [convertFromURL, convertCore, workingValue, hwt]
  | tDatetime =>
      intro v key s hwt henc
      cases v <;> simp [WellTyped] at hwt
      rename_i s0
      simp [convertToURL] at henc
      subst henc
      simp [convertFromURL, convertCore, workingValue, hwt]
  | tTime =>
      intro v key s hwt henc
      cases v <;> simp [WellTyped] at hwt
      rename_i s0
      simp [convertToURL] at henc
      subst henc
      simp [convertFromURL, convertCore, workingValue, hwt]
  | tList e ih =>
      intro v key s hwt henc
      cases v <;> simp [WellTyped] at hwt
      rename_i items
      simp only [convertToURL] at henc
      obtain ⟨ss, hss⟩ := encodeSeq_none_total items key 0
      rw [hss] at henc
      simp at henc
      subst henc
      have hseq : convertSeq key e ss 0 = .ok items :=
        convertSeq_encodeSeq e ih items key 0 ss hwt hss
      simp [convertFromURL, convertCore, workingValue, tokenItems, decodeToken_encodeToken, hseq]
  | tTuple e ih =>
      intro v key s hwt henc
      cases v <;> simp [WellTyped] at hwt
      rename_i items
      simp only [convertToURL] at henc
      obtain ⟨ss, hss⟩ := encodeSeq_none_total items key 0
      rw [hss] at henc
      simp at henc
      subst henc
      have hseq : convertSeq key e ss 0 = .ok items :=
        convertSeq_encodeSeq e ih items key 0 ss hwt hss
      simp [convertFromURL, convertCore, workingValue, tokenItems, decodeToken_encodeToken, hseq]
  | tSet e ih =>
      intro v key s hwt henc
      cases v <;> simp [WellTyped] at hwt
      rename_i items
      simp only [convertToURL] at henc
      obtain ⟨ss, hss⟩ := encodeSeq_none_total items key 0
      rw [hss] at henc
      simp at henc
      subst henc
      have hseq : convertSeq key e ss 0 = .ok items :=
        convertSeq_encodeSeq e ih items key 0 ss hwt hss
      simp [convertFromURL, convertCore, workingValue, tokenItems, decodeToken_encodeToken, hseq]

/-! ## The synchronization engine (core/meta.py)

The engine is modelled for one state class at a time: `EngState` carries the
external parameter store (`st.query_params`), the class's in-memory namespace
(`st.session_state[SESSION_STATE_KEY][cls.__name__]`), the class's plain
attributes (what `super().__setattr__` writes), and a trace of every mutation
performed on the external store.  Other classes matter only through the
registry, which `_sync_url` consults to resolve `share_url_with`.

Modelling notes, applying to this whole section:

* The optional lifecycle hooks (`on_init`, `before_set`, `on_change`) are
  modelled as absent (`hasattr` false), as in every claim under scrutiny.
* `copy.deepcopy(default)` is the identity here: model values are immutable.
* The `_is_restoring_url` re-entrancy flag is represented structurally: the
  definitions for code running under an active restore (`innerSetattr`,
  the lazy initialization inside `restoreStep`) simply do not call restore,
  which is exactly what the guard achieves; the `finally` reset means no flag
  state survives an operation.
* `share_url_with` entries are modelled as class-name strings resolved via
  the registry (the source also accepts class objects, which resolve the
  same way). -/

/-- Per-field metadata, one entry of `_model_metadata`. -/
structure FieldMeta where
  default : Value
  url_key : Option String
  value_map : Option (List (Value × String))
  dtype : PyType

/-- Per-class configuration (`cls._config`), with the source's defaults.
The source field `url_prefix` is named `url_pfx` here. -/
structure ClassConfig where
  url_selfish : Bool := true
  url_pfx : String := ""
  ignore_none_url : Bool := true
  restore_url_on_touch : Bool := true
  share_url_with : List String := []

/-- A registered state class: its name, configuration and field metadata
(in declaration order, as a Python dict preserves it). -/
structure PSClass where
  name : String
  cfg : ClassConfig
  meta : List (String × FieldMeta)

/-- The global `_PAGE_STATE_REGISTRY`. -/
abbrev Registry := List (String × PSClass)

/-- The external parameter store `st.query_params`: an ordered

string-to-string mapping. -/
abbrev QP := List (String × String)

/-- One class's in-memory namespace. -/
abbrev Ns := List (String × Value)

/-- One observable mutation of the external parameter store. -/
inductive StoreOp where
  | setParam (k v : String)
  | delParam (k : String)
deriving DecidableEq, Repr

/-- The mutable state one engine operation works on. -/
structure EngState where
  qp : QP
  ns : Ns
  classAttrs : Ns
  trace : List StoreOp

def qpGet (qp : QP) (k : String) : Option String :=
  match qp with
  | [] => none
  | (k0, v0) :: rest => if k0 = k then some v0 else qpGet rest k

/-- Model of `k in st.query_params`. -/
def qpMem (qp : QP) (k : String) : Bool := (qpGet qp k).isSome

/-- Model of `st.query_params[k] = v` (a dict update keeps the position of an
existing key and appends a new one). -/
def qpSet (qp : QP) (k v : String) : QP :=
  match qp with
  | [] => [(k, v)]
  | (k0, v0) :: rest => if k0 = k then (k0, v) :: rest else (k0, v0) :: qpSet rest k v

/-- Model of `del st.query_params[k]`. -/
def qpDel (qp : QP) (k : String) : QP := qp.filter (fun p => p.1 ≠ k)

def nsGet (ns : Ns) (f : String) : Option Value :=
  match ns with
  | [] => none
  | (f0, v0) :: rest => if f0 = f then some v0 else nsGet rest f

def nsSet (ns : Ns) (f : String) (v : Value) : Ns :=
  match ns with
  | [] => [(f, v)]
  | (f0, v0) :: rest => if f0 = f then (f0, v) :: rest else (f0, v0) :: nsSet rest f v

/-- Write one external parameter, recording the mutation. -/
def writeParam (st : EngState) (k v : String) : EngState :=
  { st with qp := qpSet st.qp k v, trace := st.trace ++ [.setParam k v] }

/-- Delete one external parameter, recording the mutation. -/
def deleteParam (st : EngState) (k : String) : EngState :=
  { st with qp := qpDel st.qp k, trace := st.trace ++ [.delParam k] }

/-- The class's own prefixed external keys. -/
def ownKeys (cls : PSClass) : List String :=
  cls.meta.filterMap (fun p => p.2.url_key.map (fun uk => cls.cfg.url_pfx ++ uk))

/-- The allowed-key set of `_sync_url`'s selfish cleanup: the class's own
prefixed keys plus the prefixed keys of every shared class resolvable through
the registry (an unresolvable name contributes nothing). -/
def allowedKeys (reg : Registry) (cls : PSClass) : List String :=
  ownKeys cls ++ cls.cfg.share_url_with.flatMap (fun nm =>
    match List.lookup nm reg with
    | some shared => ownKeys shared
    | none => [])

/-- The cleanup loop: delete every current external key not in the allowed
set (`for k in list(st.query_params.keys()): if k not in allowed_keys: del`). -/
def selfishCleanup (reg : Registry) (cls : PSClass) (st : EngState) : EngState :=
  let allowed := allowedKeys reg cls
  { st with
    qp := st.qp.filter (fun p => allowed.contains p.1),
    trace := st.trace
      ++ (st.qp.filter (fun p => !allowed.contains p.1)).map (fun p => .delParam p.1) }

/-- Model of `PageStateMeta._sync_url(cls, key, value)`.  Called only with
declared fields; a field with no `url_key` is a no-op *before* the selfish
cleanup (the early return at the top of the method).  An encoding failure
propagates, as the source has no handler here. -/
def syncUrl (reg : Registry) (cls : PSClass) (key : String) (value : Value)
    (st : EngState) : Except DecodeError EngState :=
  match List.lookup key cls.meta with
  | none => .ok st
  | some fm =>
    match fm.url_key with
    | none => .ok st
    | some uk =>
        let fk := cls.cfg.url_pfx ++ uk
        let st1 := if cls.cfg.url_selfish then selfishCleanup reg cls st else st
        match value with
        | .vNone =>
            if cls.cfg.ignore_none_url then
              .ok (if qpMem st1.qp fk then deleteParam st1 fk else st1)
            else
              match convertToURL key (.vStr "") fm.value_map with
              | .ok s => .ok (writeParam st1 fk s)
              | .error e => .error e
        | v =>
            match convertToURL key v fm.value_map with
            | .ok s => .ok (writeParam st1 fk s)
            | .error e => .error e

/-- A write performed while a restore is in progress (`__setattr__` whose
nested `_restore_url` is guard-suppressed): store into the namespace, then
run URL sync. -/
def innerSetattr (reg : Registry) (cls : PSClass) (key : String) (value : Value)
    (st : EngState) : Except DecodeError EngState :=
  syncUrl reg cls key value { st with ns := nsSet st.ns key value }

/-- The value-resolution part of `PageStateMeta._initialize_attribute`: try
the URL (note the source checks `url_key in st.query_params` — the raw
external key, *without* applying `url_prefix`), falling back to the default
on a missing key, a decode error (logged), or a decoded `None`. -/
def initValue (fm : FieldMeta) (field : String) (st : EngState) : Value :=
  let finalValue : Option Value :=
    match fm.url_key with
    | some uk =>
        match qpGet st.qp uk with
        | some urlValue =>
            match convertFromURL field urlValue fm.dtype fm.value_map with
            | .ok v => some v
            | .error _ => none
        | none => none
    | none => none
  match finalValue with
  | some .vNone => fm.default
  | some v => v
  | none => fm.default

/-- One iteration of the `_restore_url` field loop, for a field that has an
external key: read the current value via `getattr` (lazily initializing an
absent field through the inner write path), skip `None` under
`ignore_none_url` (else encode the empty string), and write the prefixed key
only if it is currently absent. -/
def restoreStep (reg : Registry) (cls : PSClass) (f : String) (fm : FieldMeta)
    (st : EngState) : Except DecodeError EngState :=
  match fm.url_key with
  | none => .ok st
  | some uk =>
      let write : Value → EngState → Except DecodeError EngState := fun w st2 =>
        let fk := cls.cfg.url_pfx ++ uk
        if qpMem st2.qp fk then .ok st2
        else
          match convertToURL f w fm.value_map with
          | .ok s => .ok (writeParam st2 fk s)
          | .error e => .error e
      match nsGet st.ns f with
      | some v =>
          match v with
          | .vNone => if cls.cfg.ignore_none_url then .ok st else write (.vStr "") st
          | w => write w st
      | none =>
          let v := initValue fm f st
          match innerSetattr reg cls f v st with
          | .error e => .error e
          | .ok st2 =>
              match v with
              | .vNone => if cls.cfg.ignore_none_url then .ok st2 else write (.vStr "") st2
              | w => write w st2

/-- The `_restore_url` loop over a list of fields. -/
def restoreFields (reg : Registry) (cls : PSClass) :
    List (String × FieldMeta) → EngState → Except DecodeError EngState
  | [], st => .ok st
  | (f, fm) :: rest, st =>
      match restoreStep reg cls f fm st with
      | .ok st2 => restoreFields reg cls rest st2
      | .error e => .error e

/-- Model of `PageStateMeta._restore_url(cls)` (entered with the re-entrancy
flag clear). -/
def restoreUrl (reg : Registry) (cls : PSClass) (st : EngState) :
    Except DecodeError EngState :=
  restoreFields reg cls cls.meta st

/-- Model of `PageStateMeta.__setattr__` on a *declared* field: store into
the namespace, sync the URL, then restore-on-touch if configured. -/
def outerSetattrKnown (reg : Registry) (cls : PSClass) (key : String)
    (value : Value) (st : EngState) : Except DecodeError EngState :=
  match syncUrl reg cls key value { st with ns := nsSet st.ns key value } with
  | .error e => .error e
  | .ok st2 =>
      if cls.cfg.restore_url_on_touch then restoreUrl reg cls st2 else .ok st2

/-- An error escaping an engine operation: the `AttributeError` of an unknown
read, the `ValueError` of an invalid bind target, or a propagated
`InvalidQueryParamError`. -/
inductive EngErr where
  | attrNotFound (clsName field : String)
  | valueError (field : String)
  | decodeErr (e : DecodeError)

/-- Model of `PageStateMeta.__setattr__(cls, key, value)`: a declared field
goes through the engine write path; anything else falls to
`super().__setattr__`, which silently stores a plain class attribute. -/
def outerSetattr (reg : Registry) (cls : PSClass) (key : String) (value : Value)
    (st : EngState) : Except EngErr EngState :=
  if (List.lookup key cls.meta).isSome then
    match outerSetattrKnown reg cls key value st with
    | .ok st2 => .ok st2
    | .error e => .error (.decodeErr e)
  else
    .ok { st with classAttrs := nsSet st.classAttrs key value }

/-- Model of `PageStateMeta.__getattr__(cls, key)`: unknown attributes raise
`AttributeError`; a present field is returned after restore-on-touch; an
absent one is lazily initialized and persisted through the full write path. -/
def outerGetattr (reg : Registry) (cls : PSClass) (key : String) (st : EngState) :
    Except EngErr (Value × EngState) :=
  match List.lookup key cls.meta with
  | none => .error (.attrNotFound cls.name key)
  | some fm =>
      match nsGet st.ns key with
      | some v =>
          if cls.cfg.restore_url_on_touch then
            match restoreUrl reg cls st with
            | .ok st2 => .ok ((nsGet st2.ns key).getD v, st2)
            | .error e => .error (.decodeErr e)
          else .ok (v, st)
      | none =>
          let v := initValue fm key st
          match outerSetattrKnown reg cls key v st with
          | .ok st2 => .ok (v, st2)
          | .error e => .error (.decodeErr e)

/-! ## Widget binding (core/state.py) -/

/-- Model of `PageState.bind(cls, field)` as written in the source: validate
the field, build the widget key `f"{cls.__name__}_{field}_widget"`, resolve
the field's current value through `getattr`, and *unconditionally* seed the
widget's backing entry in `st.session_state` with it.  `widgetStore` is the
collection of widget-key entries sitting next to the engine's namespace in
`st.session_state`.  Returns the widget key, the updated widget store, and
the engine state after the resolving read (the `on_change` callback it also
returns is the write path `outerSetattr` applied to whatever the widget
store then holds). -/
def bind (reg : Registry) (cls : PSClass) (field : String)
    (widgetStore : Ns) (st : EngState) :
    Except EngErr (String × Ns × EngState) :=
  match List.lookup field cls.meta with
  | none => .error (.valueError field)
  | some _ =>
      let widgetKey := cls.name ++ "_" ++ field ++ "_widget"
      match outerGetattr reg cls field st with
      | .error e => .error e
      | .ok (initial, st2) => .ok (widgetKey, nsSet widgetStore widgetKey initial, st2)

/-! ## Engine lemmas -/

theorem convertCore_error_payload (key : String) (ty : PyType) (v : Value) (e : DecodeError)
    (h : convertCore key ty v = .error e) :
    e.key = key ∧ e.targetType = ty ∧ e.raw = v := by
  cases ty <;> cases v <;>
    (simp only [convertCore] at h
     repeat' split at h
     all_goals try cases h
     all_goals exact ⟨rfl, rfl, rfl⟩)

theorem qpGet_qpSet_self (qp : QP) (k v : String) : qpGet (qpSet qp k v) k = some v := by
  induction qp with
  | nil => simp [qpSet, qpGet]
  | cons p rest ih =>
      obtain ⟨k0, v0⟩ := p
      by_cases hk : k0 = k
      · simp [qpSet, qpGet, hk]
      · simp [qpSet, qpGet, hk, ih]

theorem qpGet_qpSet_ne (qp : QP) (k v k2 : String) (h : k2 ≠ k) :
    qpGet (qpSet qp k v) k2 = qpGet qp k2 := by
  induction qp with
  | nil => simp [qpSet, qpGet, Ne.symm h]
  | cons p rest ih =>
      obtain ⟨k0, v0⟩ := p
      by_cases hk : k0 = k
      · subst hk
        simp [qpSet, qpGet, Ne.symm h, h]
      · by_cases hk2 : k0 = k2 <;> simp [qpSet, qpGet, hk, hk2, h, ih]

theorem qpGet_qpDel_self (qp : QP) (k : String) : qpGet (qpDel qp k) k = none := by
  induction qp with
  | nil => rfl
  | cons p rest ih =>
      obtain ⟨k0, v0⟩ := p
      simp only [qpDel, List.filter_cons, ne_eq, decide_not] at ih ⊢
      by_cases hk : k0 = k
      · simpa [hk] using ih
      · simp [hk, qpGet, ih]

theorem qpGet_qpDel_ne (qp : QP) (k k2 : String) (h : k2 ≠ k) :
    qpGet (qpDel qp k) k2 = qpGet qp k2 := by
  induction qp with
  | nil => rfl
  | cons p rest ih =>
      obtain ⟨k0, v0⟩ := p
      simp only [qpDel, List.filter_cons, ne_eq, decide_not] at ih ⊢
      by_cases hk : k0 = k
      · subst hk
        simp [qpGet, Ne.symm h, h, ih]
      · by_cases hk2 : k0 = k2 <;> simp [qpGet, hk, hk2, h, ih]

theorem nsGet_nsSet_self (ns : Ns) (f : String) (v : Value) :
    nsGet (nsSet ns f v) f = some v := by
  induction ns with
  | nil => simp [nsSet, nsGet]
  | cons p rest ih =>
      obtain ⟨f0, v0⟩ := p
      by_cases hf : f0 = f
      · simp [nsSet, nsGet, hf]
      · simp [nsSet, nsGet, hf, ih]

theorem nsGet_nsSet_ne (ns : Ns) (f : String) (v : Value) (f2 : String) (h : f2 ≠ f) :
    nsGet (nsSet ns f v) f2 = nsGet ns f2 := by
  induction ns with
  | nil => simp [nsSet, nsGet, Ne.symm h]
  | cons p rest ih =>
      obtain ⟨f0, v0⟩ := p
      by_cases hf : f0 = f
      · subst hf
        simp [nsSet, nsGet, Ne.symm h, h]
      · by_cases hf2 : f0 = f2 <;> simp [nsSet, nsGet, hf, hf2, h, ih]

theorem qpGet_filter_keys (qp : QP) (p : String → Bool) (k : String) :
    qpGet (qp.filter (fun e => p e.1)) k = if p k then qpGet qp k else none := by
  induction qp with
  | nil => simp [qpGet]
  | cons e rest ih =>
      obtain ⟨k0, v0⟩ := e
      rw [List.filter_cons]
      by_cases hp : p k0
      · rw [if_pos (by simpa using hp)]
        by_cases hk : k0 = k
        · subst hk
          rw [qpGet, if_pos rfl, if_pos hp, qpGet, if_pos rfl]
        · rw [qpGet, if_neg hk, ih]
          by_cases hpk : p k
          · rw [if_pos hpk, if_pos hpk, qpGet, if_neg hk]
          · rw [if_neg hpk, if_neg hpk]
      · rw [if_neg (by simpa using hp)]
        rw [ih]
        by_cases hpk : p k
        · rw [if_pos hpk, if_pos hpk, qpGet, if_neg (fun hh => hp (by rw [hh]; exact hpk))]
        · rw [if_neg hpk, if_neg hpk]

theorem selfishCleanup_qp (reg : Registry) (cls : PSClass) (st : EngState) (k : String) :
    qpGet (selfishCleanup reg cls st).qp k
      = if (allowedKeys reg cls).contains k then qpGet st.qp k else none := by
  unfold selfishCleanup
  exact qpGet_filter_keys st.qp (fun x => (allowedKeys reg cls).contains x) k

theorem selfishCleanup_ns (reg : Registry) (cls : PSClass) (st : EngState) :
    (selfishCleanup reg cls st).ns = st.ns := rfl

theorem selfishCleanup_classAttrs (reg : Registry) (cls : PSClass) (st : EngState) :
    (selfishCleanup reg cls st).classAttrs = st.classAttrs := rfl

theorem ownKeys_subset_allowed {reg : Registry} {cls : PSClass} {k : String}
    (h : k ∈ ownKeys cls) : k ∈ allowedKeys reg cls := by
  unfold allowedKeys
  exact List.mem_append.mpr (Or.inl h)

theorem mem_lookup {α β : Type} [BEq α] [LawfulBEq α] {l : List (α × β)} {k : α} {x : β}
    (hnodup : (l.map Prod.fst).Nodup) (h : (k, x) ∈ l) : List.lookup k l = some x := by
  induction l with
  | nil => simp at h
  | cons p rest ih =>
      obtain ⟨k0, v0⟩ := p
      rw [List.map_cons, List.nodup_cons] at hnodup
      rcases List.mem_cons.mp h with heq | htail
      · injection heq with h1 h2
        subst h1
        subst h2
        simp [List.lookup]
      · have hne : ¬ (k == k0) := by
          intro hbeq
          obtain rfl := eq_of_beq hbeq
          exact hnodup.1 (List.mem_map.mpr ⟨(k, x), htail, rfl⟩)
        rw [List.lookup]
        simp only [Bool.not_eq_true] at hne
        simp only [hne, cond_false]
        exact ih hnodup.2 htail

/-- The conditional write at the end of a restore step: writes the prefixed
key only when absent, touching nothing else. -/
theorem restoreWriteSpec {f : String} {fm : FieldMeta} {fk : String} {w : Value}
    {st st2 : EngState}
    (hok : (if qpMem st.qp fk = true then Except.ok st
            else match convertToURL f w fm.value_map with
              | .ok s => Except.ok (writeParam st fk s)
              | .error e => Except.error e) = Except.ok st2) :
    st2.ns = st.ns ∧ st2.classAttrs = st.classAttrs ∧
    (∀ k v, qpGet st.qp k = some v → qpGet st2.qp k = some v) ∧
    (∀ k, qpMem st.qp k = false → qpMem st2.qp k = true → k = fk) ∧
    qpMem st2.qp fk = true := by
  split at hok
  · rename_i hpos
    obtain rfl := Except.ok.inj hok
    exact ⟨rfl, rfl, fun k v h => h, fun k h1 h2 => absurd h2 (by simp [h1]), hpos⟩
  · rename_i hneg
    split at hok
    · rename_i s henc
      obtain rfl := Except.ok.inj hok
      refine ⟨rfl, rfl, ?_, ?_, ?_⟩
      · intro k v h
        have hkne : k ≠ fk := by
          intro hkeq
          subst hkeq
          exact hneg (by simp [qpMem, h])
        show qpGet (qpSet st.qp fk s) k = some v
        rw [qpGet_qpSet_ne st.qp fk s k hkne]
        exact h
      · intro k h1 h2
        by_cases hkeq : k = fk
        · exact hkeq
        · exfalso
          have hqm : qpMem (writeParam st fk s).qp k = qpMem st.qp k := by
            show (qpGet (qpSet st.qp fk s) k).isSome = (qpGet st.qp k).isSome
            rw [qpGet_qpSet_ne st.qp fk s k hkeq]
          rw [hqm, h1] at h2
          cases h2
      · show (qpGet (qpSet st.qp fk s) fk).isSome = true
        rw [qpGet_qpSet_self]
        rfl
    · cases hok

/-- When the field is already in the namespace, a restore step never touches
the namespace or class attributes, never changes a present parameter, and
adds at most the field's own prefixed key, only when its value is not
suppressed. -/
theorem restoreStep_present {reg : Registry} {cls : PSClass} {f : String} {fm : FieldMeta}
    {st st2 : EngState}
    (hpres : ∀ uk, fm.url_key = some uk → (nsGet st.ns f).isSome = true)
    (hok : restoreStep reg cls f fm st = .ok st2) :
    st2.ns = st.ns ∧ st2.classAttrs = st.classAttrs ∧
    (∀ k v, qpGet st.qp k = some v → qpGet st2.qp k = some v) ∧
    (∀ k, qpMem st.qp k = false → qpMem st2.qp k = true →
      ∃ uk, fm.url_key = some uk ∧ k = cls.cfg.url_pfx ++ uk ∧
        ∃ w, nsGet st.ns f = some w ∧ ¬(w = .vNone ∧ cls.cfg.ignore_none_url = true)) := by
  cases huk : fm.url_key with
  | none =>
      simp only [restoreStep, huk] at hok
      obtain rfl := Except.ok.inj hok
      exact ⟨rfl, rfl, fun k v h => h, fun k h1 h2 => absurd h2 (by simp [h1])⟩
  | some uk =>
      have hsome := hpres uk huk
      cases hv : nsGet st.ns f with
      | none => rw [hv] at hsome; simp at hsome
      | some v =>
          simp only [restoreStep, huk, hv] at hok
          cases v with
          | vNone =>
              by_cases hig : cls.cfg.ignore_none_url = true
              · simp only [if_pos hig] at hok
                obtain rfl := Except.ok.inj hok
                exact ⟨rfl, rfl, fun k v h => h, fun k h1 h2 => absurd h2 (by simp [h1])⟩
              · rw [if_neg hig] at hok
                obtain ⟨h1, h2, h3, h4, h5⟩ := restoreWriteSpec hok
                refine ⟨h1, h2, h3, ?_⟩
                intro k hk1 hk2
                obtain rfl := h4 k hk1 hk2
                exact ⟨uk, rfl, rfl, .vNone, rfl, fun hc => hig hc.2⟩
          | vBool b =>
              obtain ⟨h1, h2, h3, h4, h5⟩ := restoreWriteSpec hok
              refine ⟨h1, h2, h3, ?_⟩
              intro k hk1 hk2
              obtain rfl := h4 k hk1 hk2
              exact ⟨uk, rfl, rfl, .vBool b, rfl, by simp⟩
          | vInt i =>
              obtain ⟨h1, h2, h3, h4, h5⟩ := restoreWriteSpec hok
              refine ⟨h1, h2, h3, ?_⟩
              intro k hk1 hk2
              obtain rfl := h4 k hk1 hk2
              exact ⟨uk, rfl, rfl, .vInt i, rfl, by simp⟩
          | vFloat x =>
              obtain ⟨h1, h2, h3, h4, h5⟩ := restoreWriteSpec hok
              refine ⟨h1, h2, h3, ?_⟩
              intro k hk1 hk2
              obtain rfl := h4 k hk1 hk2
              exact ⟨uk, rfl, rfl, .vFloat x, rfl, by simp⟩
          | vStr s =>
              obtain ⟨h1, h2, h3, h4, h5⟩ := restoreWriteSpec hok
              refine ⟨h1, h2, h3, ?_⟩
              intro k hk1 hk2
              obtain rfl := h4 k hk1 hk2
              exact ⟨uk, rfl, rfl, .vStr s, rfl, by simp⟩
          | vDate s =>
              obtain ⟨h1, h2, h3, h4, h5⟩ := restoreWriteSpec hok
              refine ⟨h1, h2, h3, ?_⟩
              intro k hk1 hk2
              obtain rfl := h4 k hk1 hk2
              exact ⟨uk, rfl, rfl, .vDate s, rfl, by simp⟩
          | vDatetime s =>
              obtain ⟨h1, h2, h3, h4, h5⟩ := restoreWriteSpec hok
              refine ⟨h1, h2, h3, ?_⟩
              intro k hk1 hk2
              obtain rfl := h4 k hk1 hk2
              exact ⟨uk, rfl, rfl, .vDatetime s, rfl, by simp⟩
          | vTime s =>
              obtain ⟨h1, h2, h3, h4, h5⟩ := restoreWriteSpec hok
              refine ⟨h1, h2, h3, ?_⟩
              intro k hk1 hk2
              obtain rfl := h4 k hk1 hk2
              exact ⟨uk, rfl, rfl, .vTime s, rfl, by simp⟩
          | vBytes bs =>
              obtain ⟨h1, h2, h3, h4, h5⟩ := restoreWriteSpec hok
              refine ⟨h1, h2, h3, ?_⟩
              intro k hk1 hk2
              obtain rfl := h4 k hk1 hk2
              exact ⟨uk, rfl, rfl, .vBytes bs, rfl, by simp⟩
          | vList l =>
              obtain ⟨h1, h2, h3, h4, h5⟩ := restoreWriteSpec hok
              refine ⟨h1, h2, h3, ?_⟩
              intro k hk1 hk2
              obtain rfl := h4 k hk1 hk2
              exact ⟨uk, rfl, rfl, .vList l, rfl, by simp⟩
          | vTuple l =>
              obtain ⟨h1, h2, h3, h4, h5⟩ := restoreWriteSpec hok
              refine ⟨h1, h2, h3, ?_⟩
              intro k hk1 hk2
              obtain rfl := h4 k hk1 hk2
              exact ⟨uk, rfl, rfl, .vTuple l, rfl, by simp⟩
          | vSet l =>
              obtain ⟨h1, h2, h3, h4, h5⟩ := restoreWriteSpec hok
              refine ⟨h1, h2, h3, ?_⟩
              intro k hk1 hk2
              obtain rfl := h4 k hk1 hk2
              exact ⟨uk, rfl, rfl, .vSet l, rfl, by simp⟩
          | vDict d =>
              obtain ⟨h1, h2, h3, h4, h5⟩ := restoreWriteSpec hok
              refine ⟨h1, h2, h3, ?_⟩
              intro k hk1 hk2
              obtain rfl := h4 k hk1 hk2
              exact ⟨uk, rfl, rfl, .vDict d, rfl, by simp⟩


/-- A full restore pass over fields that are all present in the namespace:
the namespace is untouched, present parameters keep their values, and any new
parameter is an own prefixed key of a non-suppressed field. -/
theorem restoreFields_present {reg : Registry} {cls : PSClass} :
    ∀ (L : List (String × FieldMeta)) (st st2 : EngState),
      (∀ p ∈ L, ∀ uk, p.2.url_key = some uk → (nsGet st.ns p.1).isSome = true) →
      restoreFields reg cls L st = .ok st2 →
      st2.ns = st.ns ∧ st2.classAttrs = st.classAttrs ∧
      (∀ k v, qpGet st.qp k = some v → qpGet st2.qp k = some v) ∧
      (∀ k, qpMem st.qp k = false → qpMem st2.qp k = true →
        ∃ p ∈ L, ∃ uk, p.2.url_key = some uk ∧ k = cls.cfg.url_pfx ++ uk ∧
          ∃ w, nsGet st.ns p.1 = some w ∧
            ¬(w = .vNone ∧ cls.cfg.ignore_none_url = true)) := by
  intro L
  induction L with
  | nil =>
      intro st st2 _ hok
      obtain rfl := Except.ok.inj hok
      exact ⟨rfl, rfl, fun k v h => h, fun k h1 h2 => absurd h2 (by simp [h1])⟩
  | cons p rest ih =>
      obtain ⟨f, fm⟩ := p
      intro st st2 hpres hok
      rw [restoreFields] at hok
      cases hstep : restoreStep reg cls f fm st with
      | error e => rw [hstep] at hok; cases hok
      | ok st1 =>
          rw [hstep] at hok
          obtain ⟨e1, e2, p3, p4⟩ :=
            restoreStep_present (fun uk huk => hpres (f, fm) (List.mem_cons_self _ _) uk huk)
              hstep
          have hpres1 : ∀ q ∈ rest, ∀ uk, q.2.url_key = some uk →
              (nsGet st1.ns q.1).isSome = true := by
            intro q hq uk huk
            rw [e1]
            exact hpres q (List.mem_cons_of_mem _ hq) uk huk
          obtain ⟨f1, f2, g3, g4⟩ := ih st1 st2 hpres1 hok
          refine ⟨f1.trans e1, f2.trans e2, fun k v h => g3 k v (p3 k v h), ?_⟩
          intro k h1 h2
          by_cases hmid : qpMem st1.qp k = true
          · obtain ⟨uk, huk, hkk, w, hw, hcond⟩ := p4 k h1 hmid
            exact ⟨(f, fm), List.mem_cons_self _ _, uk, huk, hkk, w, hw, hcond⟩
          · have hmid2 : qpMem st1.qp k = false := by
              cases hx : qpMem st1.qp k
              · rfl
              · exact absurd hx hmid
            obtain ⟨q, hq, uk, huk, hkk, w, hw, hcond⟩ := g4 k hmid2 h2
            rw [e1] at hw
            exact ⟨q, List.mem_cons_of_mem _ hq, uk, huk, hkk, w, hw, hcond⟩

/-! ## Remote-store state serialization (converters.py)

`serialize_state` is `json.dumps(_prepare_for_json(data))` and
`deserialize_state` is `json.loads(raw, object_hook=_state_json_hook)`.
`json.dumps` / `json.loads` form a stdlib bijection between JSON-safe value
trees and their textual form, so the model works on the trees directly:
serialization is `_prepare_for_json`, deserialization applies the object
hook bottom-up to every dict, exactly as `json.loads` does.  `base64` for
the `bytes` envelope is modelled by the same verified token codec, rendering
each byte in decimal. -/

/-- Model of `base64.b64encode(obj).decode()` for bytes: an injective,
decodable rendering. -/
def bytesToStr (bs : List Nat) : String := encodeToken (bs.map natToStr)

/-- Model of `base64.b64decode(v)` (returns `none` where Python raises;
unreachable on serializer output). -/
def bytesFromStr (s : String) : Option (List Nat) :=
  match decodeToken s with
  | some items => items.mapM parseNat
  | none => none

theorem bytesFromStr_bytesToStr (bs : List Nat) :
    bytesFromStr (bytesToStr bs) = some bs := by
  unfold bytesFromStr bytesToStr
  rw [decodeToken_encodeToken]
  induction bs with
  | nil => rfl
  | cons b rest ih =>
      simp only [List.map_cons, List.mapM_cons, parseNat_natToStr]
      simp only [List.mapM_cons] at ih ⊢
      rw [show (rest.map natToStr).mapM parseNat = some rest from by simpa using ih]
      rfl

/-- The type-tagged envelope `{"__type__": t, "__value__": v}`. -/
def envelope (t : String) (v : Value) : Value :=
  .vDict [("__type__", .vStr t), ("__value__", v)]

mutual

/-- Model of `_prepare_for_json`: recursively convert a value into its
JSON-safe, type-tagged form, following the source's `isinstance` dispatch
order (dict, tuple, set, list, datetime, date, time, bytes, primitives). -/
def prepareForJson : Value → Value
  | .vDict entries => .vDict (prepareEntries entries)
  | .vTuple items => envelope "tuple" (.vList (prepareList items))
  | .vSet items => envelope "set" (.vList (prepareList items))
  | .vList items => .vList (prepareList items)
  | .vDatetime s => envelope "datetime" (.vStr s)
  | .vDate s => envelope "date" (.vStr s)
  | .vTime s => envelope "time" (.vStr s)
  | .vBytes bs => envelope "bytes" (.vStr (bytesToStr bs))
  | prim => prim

def prepareList : List Value → List Value
  | [] => []
  | v :: rest => prepareForJson v :: prepareList rest

def prepareEntries : List (String × Value) → List (String × Value)
  | [] => []
  | (k, v) :: rest => (k, prepareForJson v) :: prepareEntries rest

end

/-- Model of `_state_json_hook(dct)`: reconstruct a typed object from its
envelope; a dict with no (string) `__type__` tag, a missing `__value__`, or
an unknown tag passes through unchanged (Python would raise a `KeyError` on
a tagged dict with no `__value__`; that shape never reaches the hook from
serializer output, and the model lets it pass through). -/
def stateJsonHook (entries : List (String × Value)) : Value :=
  match nsGet entries "__type__" with
  | some (.vStr t) =>
      match nsGet entries "__value__" with
      | some v =>
          if t = "datetime" then .vDatetime (match v with | .vStr s => s | _ => "")
          else if t = "date" then .vDate (match v with | .vStr s => s | _ => "")
          else if t = "time" then .vTime (match v with | .vStr s => s | _ => "")
          else if t = "set" then .vSet (match v with | .vList l => l | _ => [])
          else if t = "tuple" then .vTuple (match v with | .vList l => l | _ => [])
          else if t = "bytes" then
            .vBytes (match v with
              | .vStr s => (bytesFromStr s).getD []
              | _ => [])
          else .vDict entries
      | none => .vDict entries
  | _ => .vDict entries

mutual

/-- Model of `json.loads(·, object_hook=_state_json_hook)` on a JSON tree:
the hook is applied to every object, innermost first. -/
def jsonHookWalk : Value → Value
  | .vList items => .vList (jsonHookWalkList items)
  | .vDict entries => stateJsonHook (jsonHookWalkEntries entries)
  | prim => prim

def jsonHookWalkList : List Value → List Value
  | [] => []
  | v :: rest => jsonHookWalk v :: jsonHookWalkList rest

def jsonHookWalkEntries : List (String × Value) → List (String × Value)
  | [] => []
  | (k, v) :: rest => (k, jsonHookWalk v) :: jsonHookWalkEntries rest

end

/-- Model of `serialize_state` (up to the `json.dumps` text layer). -/
def serialize_state (data : List (String × Value)) : Value :=
  prepareForJson (.vDict data)

/-- Model of `deserialize_state` (up to the `json.loads` text layer). -/
def deserialize_state (j : Value) : Value := jsonHookWalk j

mutual

/-- Values the remote-store serialization round-trips losslessly: built from
JSON-representable primitives (`nan` is not one — `json` emits the
non-standard `NaN`, and it is unequal to itself anyway), temporal values,
bytes, and collections, with no dict carrying a `__type__` tag (the claim's
own proviso: such a dict would be re-interpreted by the load hook). -/
def wfState : Value → Bool
  | .vFloat .nan => false
  | .vList items => wfStateList items
  | .vTuple items => wfStateList items
  | .vSet items => wfStateList items
  | .vDict entries => (nsGet entries "__type__").isNone && wfStateEntries entries
  | _ => true

def wfStateList : List Value → Bool
  | [] => true
  | v :: rest => wfState v && wfStateList rest

def wfStateEntries : List (String × Value) → Bool
  | [] => true
  | (_, v) :: rest => wfState v && wfStateEntries rest

end

mutual

theorem wfState_hasNaN (v : Value) (h : wfState v = true) : hasNaN v = false := by
  cases v with
  | vFloat f => cases f <;> simp_all [wfState, hasNaN]
  | vList items =>
      rw [hasNaN]
      exact wfStateList_hasNaN items h
  | vTuple items =>
      rw [hasNaN]
      exact wfStateList_hasNaN items h
  | vSet items =>
      rw [hasNaN]
      exact wfStateList_hasNaN items h
  | vDict entries =>
      rw [hasNaN]
      rw [wfState, Bool.and_eq_true] at h
      exact wfStateEntries_hasNaN entries h.2
  | vNone => rfl
  | vBool b => rfl
  | vInt i => rfl
  | vStr s => rfl
  | vDate s => rfl
  | vDatetime s => rfl
  | vTime s => rfl
  | vBytes bs => rfl

theorem wfStateList_hasNaN (l : List Value) (h : wfStateList l = true) :
    hasNaNList l = false := by
  cases l with
  | nil => rfl
  | cons v rest =>
      rw [wfStateList, Bool.and_eq_true] at h
      rw [hasNaNList, Bool.or_eq_false_iff]
      exact ⟨wfState_hasNaN v h.1, wfStateList_hasNaN rest h.2⟩

theorem wfStateEntries_hasNaN (l : List (String × Value)) (h : wfStateEntries l = true) :
    hasNaNEntries l = false := by
  cases l with
  | nil => rfl
  | cons p rest =>
      obtain ⟨k, v⟩ := p
      rw [wfStateEntries, Bool.and_eq_true] at h
      rw [hasNaNEntries, Bool.or_eq_false_iff]
      exact ⟨wfState_hasNaN v h.1, wfStateEntries_hasNaN rest h.2⟩

end

mutual

/-- Deserialization inverts serialization on well-formed values. -/
theorem jsonHookWalk_prepareForJson (v : Value) (h : wfState v = true) :
    jsonHookWalk (prepareForJson v) = v := by
  cases v with
  | vNone => rfl
  | vBool b => rfl
  | vInt i => rfl
  | vFloat f => cases f <;> rfl
  | vStr s => rfl
  | vDate s =>
      simp [prepareForJson, envelope, jsonHookWalk, jsonHookWalkEntries,
        stateJsonHook, nsGet]
  | vDatetime s =>
      simp [prepareForJson, envelope, jsonHookWalk, jsonHookWalkEntries,
        stateJsonHook, nsGet]
  | vTime s =>
      simp [prepareForJson, envelope, jsonHookWalk, jsonHookWalkEntries,
        stateJsonHook, nsGet]
  | vBytes bs =>
      simp [prepareForJson, envelope, jsonHookWalk, jsonHookWalkEntries,
        stateJsonHook, nsGet, bytesFromStr_bytesToStr]
  | vList items =>
      rw [prepareForJson, jsonHookWalk]
      rw [jsonHookWalkList_prepareList items h]
  | vTuple items =>
      rw [prepareForJson, envelope, jsonHookWalk]
      rw [show jsonHookWalkEntries
            [("__type__", .vStr "tuple"), ("__value__", .vList (prepareList items))]
          = [("__type__", .vStr "tuple"),
             ("__value__", jsonHookWalk (.vList (prepareList items)))] from rfl]
      rw [show jsonHookWalk (.vList (prepareList items))
          = .vList (jsonHookWalkList (prepareList items)) from rfl]
      rw [jsonHookWalkList_prepareList items h]
      simp [stateJsonHook, nsGet]
  | vSet items =>
      rw [prepareForJson, envelope, jsonHookWalk]
      rw [show jsonHookWalkEntries
            [("__type__", .vStr "set"), ("__value__", .vList (prepareList items))]
          = [("__type__", .vStr "set"),
             ("__value__", jsonHookWalk (.vList (prepareList items)))] from rfl]
      rw [show jsonHookWalk (.vList (prepareList items))
          = .vList (jsonHookWalkList (prepareList items)) from rfl]
      rw [jsonHookWalkList_prepareList items h]
      simp [stateJsonHook, nsGet]
  | vDict entries =>
      rw [wfState, Bool.and_eq_true] at h
      rw [prepareForJson, jsonHookWalk]
      rw [jsonHookWalkEntries_prepareEntries entries h.2]
      rw [stateJsonHook]
      rw [show nsGet entries "__type__" = none from by
        have := h.1
        cases hx : nsGet entries "__type__" <;> simp_all]

theorem jsonHookWalkList_prepareList (l : List Value) (h : wfStateList l = true) :
    jsonHookWalkList (prepareList l) = l := by
  cases l with
  | nil => rfl
  | cons v rest =>
      rw [wfStateList, Bool.and_eq_true] at h
      rw [prepareList, jsonHookWalkList]
      rw [jsonHookWalk_prepareForJson v h.1, jsonHookWalkList_prepareList rest h.2]

theorem jsonHookWalkEntries_prepareEntries (l : List (String × Value))
    (h : wfStateEntries l = true) :
    jsonHookWalkEntries (prepareEntries l) = l := by
  cases l with
  | nil => rfl
  | cons p rest =>
      obtain ⟨k, v⟩ := p
      rw [wfStateEntries, Bool.and_eq_true] at h
      rw [prepareEntries, jsonHookWalkEntries]
      rw [jsonHookWalk_prepareForJson v h.1, jsonHookWalkEntries_prepareEntries rest h.2]

end

/-! ## The Redis persistence adapter: session-entry logic
(backends/redis_backend.py)

The model covers the synchronous entry phase of `RedisBackend.session`:
identity-transition wipe, then the guarded load.  The remote store is a
mapping from `(session_id, class_name)` to a stored namespace (the
`<prefix>:<sid>:<Class>` key split into its components); `load_all` yields
the entries of one session id, already deserialized. -/

/-- The remote key-value store contents. -/
abbrev RedisStore := List ((String × String) × Ns)

/-- Lookup in a class-name-to-namespace mapping. -/
def nssGet : List (String × Ns) → String → Option Ns
  | [], _ => none
  | (c0, ns0) :: rest, c => if c0 = c then some ns0 else nssGet rest c

/-- Model of `GET <prefix>:<sid>:<className>` followed by
`deserialize_state`. -/
def redisGet : RedisStore → String → String → Option Ns
  | [], _, _ => none
  | ((s0, c0), ns0) :: rest, sid, c =>
      if s0 = sid ∧ c0 = c then some ns0 else redisGet rest sid c

/-- All class namespaces stored under one session id (model of `load_all`,
which `SCAN`s `<prefix>:<sid>:*`; empty namespaces are dropped by the
`if data:` check). -/
def loadAll (redis : RedisStore) (sid : String) : List (String × Ns) :=
  (redis.filter (fun e => e.1.1 = sid && !e.2.isEmpty)).map (fun e => (e.1.2, e.2))

/-- The host session object: the recorded session-id marker
(`_st_page_state_sid`) and the engine namespaces
(`st.session_state[SESSION_STATE_KEY]`). -/
structure SessionSt where
  marker : Option String
  namespaces : List (String × Ns)

/-- The prefixed URL keys of the fields of registered class `className`
(the `url_fields` set the loader computes). -/
def urlFieldsOf (reg : Registry) (className : String) : List String :=
  match List.lookup className reg with
  | some cls => ownKeys cls
  | none => []

/-- Filter one loaded namespace: drop every field whose prefixed URL key is
currently present in the external store (the per-field skip, which the
source only runs when the class has at least one URL field present). -/
def filterLoaded (reg : Registry) (qp : QP) (className : String) (fields : Ns) : Ns :=
  match List.lookup className reg with
  | some cls =>
      if (ownKeys cls).any (fun k => qpMem qp k) then
        fields.filter (fun p =>
          match List.lookup p.1 cls.meta with
          | some fm =>
              match fm.url_key with
              | some uk => !qpMem qp (cls.cfg.url_pfx ++ uk)
              | none => true
          | none => true)
      else fields
  | none => fields

/-- Replace (or append) one class namespace. -/
def nssSet : List (String × Ns) → String → Ns → List (String × Ns)
  | [], c, v => [(c, v)]
  | (c0, v0) :: rest, c, v =>
      if c0 = c then (c0, v) :: rest else (c0, v0) :: nssSet rest c v

/-- Merge a loaded namespace into the session (`setdefault` + `update`). -/
def mergeLoaded (namespaces : List (String × Ns)) (className : String) (fields : Ns) :
    List (String × Ns) :=
  match nssGet namespaces className with
  | some existing =>
      nssSet namespaces className (fields.foldl (fun acc p => nsSet acc p.1 p.2) existing)
  | none => namespaces ++ [(className, fields)]

/-- The load loop body over the entries of `load_all`. -/
def loadLoop (reg : Registry) (qp : QP) (warm : List (String × Ns)) :
    List (String × Ns) → List (String × Ns) → List (String × Ns)
  | [], acc => acc
  | (className, fields) :: rest, acc =>
      -- skip classes whose namespace is already warm
      let isWarm :=
        match nssGet warm className with
        | some ns0 => !ns0.isEmpty
        | none => false
      if isWarm then loadLoop reg qp warm rest acc
      else
        let fields2 := filterLoaded reg qp className fields
        if fields2.isEmpty then loadLoop reg qp warm rest acc
        else loadLoop reg qp warm rest (mergeLoaded acc className fields2)

/-- Model of the entry phase of `RedisBackend.session`: resolve the session
id, wipe the namespaces on an identity transition, record the marker, then
load every stored class namespace under the two guards (warm skip and URL
priority). -/
def sessionEntry (reg : Registry) (redis : RedisStore) (sid : String) (qp : QP)
    (ss : SessionSt) : SessionSt :=
  let namespaces0 :=
    match ss.marker with
    | some prev => if prev ≠ sid then [] else ss.namespaces
    | none => ss.namespaces
  { marker := some sid
    namespaces := loadLoop reg qp namespaces0 (loadAll redis sid) namespaces0 }

/-- The value a later evaluation pass observes for `Class.field` out of the
in-memory namespaces (before any engine lazy initialization). -/
def sessionField (ss : SessionSt) (c f : String) : Option Value :=
  match nssGet ss.namespaces c with
  | some ns0 => nsGet ns0 f
  | none => none

/-! ### Soundness of the guarded load -/

theorem nsGet_mem {ns : Ns} {f : String} {v : Value} (h : nsGet ns f = some v) :
    (f, v) ∈ ns := by
  induction ns with
  | nil => simp [nsGet] at h
  | cons p rest ih =>
      obtain ⟨f0, v0⟩ := p
      rw [nsGet] at h
      by_cases hf : f0 = f
      · rw [if_pos hf] at h
        obtain rfl := Option.some_inj.mp h
        subst hf
        exact List.mem_cons_self _ _
      · rw [if_neg hf] at h
        exact List.mem_cons_of_mem _ (ih h)

theorem mem_nsGet {ns : Ns} {f : String} {v : Value}
    (hnodup : (ns.map Prod.fst).Nodup) (h : (f, v) ∈ ns) : nsGet ns f = some v := by
  induction ns with
  | nil => simp at h
  | cons p rest ih =>
      obtain ⟨f0, v0⟩ := p
      rw [List.map_cons, List.nodup_cons] at hnodup
      rcases List.mem_cons.mp h with heq | htail
      · injection heq with h1 h2
        subst h1
        subst h2
        simp [nsGet]
      · have hne : f0 ≠ f := by
          intro hf
          subst hf
          exact hnodup.1 (List.mem_map.mpr ⟨(f0, v), htail, rfl⟩)
        rw [nsGet, if_neg hne]
        exact ih hnodup.2 htail

theorem lookup_mem {α β : Type} [BEq α] [LawfulBEq α] {l : List (α × β)} {k : α} {x : β}
    (h : List.lookup k l = some x) : (k, x) ∈ l := by
  induction l with
  | nil => simp [List.lookup] at h
  | cons p rest ih =>
      obtain ⟨k0, v0⟩ := p
      rw [List.lookup] at h
      by_cases hk : k == k0
      · simp only [hk, cond_true] at h
        obtain rfl := Option.some_inj.mp h
        obtain rfl := eq_of_beq hk
        exact List.mem_cons_self _ _
      · simp only [Bool.not_eq_true] at hk
        simp only [hk, cond_false] at h
        exact List.mem_cons_of_mem _ (ih h)

theorem ownKeys_mem {cls : PSClass} {f : String} {fm : FieldMeta} {uk : String}
    (hf : List.lookup f cls.meta = some fm) (huk : fm.url_key = some uk) :
    (cls.cfg.url_pfx ++ uk) ∈ ownKeys cls := by
  unfold ownKeys
  refine List.mem_filterMap.mpr ⟨(f, fm), lookup_mem hf, ?_⟩
  rw [huk]
  rfl

/-- One step of `loadAll`, unfolded. -/
theorem loadAll_cons (s0 c0 : String) (ns0 : Ns) (rest : RedisStore) (sid : String) :
    loadAll (((s0, c0), ns0) :: rest) sid
      = (if s0 = sid ∧ ns0.isEmpty = false then [(c0, ns0)] else []) ++ loadAll rest sid := by
  by_cases h1 : s0 = sid <;> by_cases h2 : ns0.isEmpty <;>
    simp [loadAll, List.filter_cons, h1, h2]

theorem mem_loadAll {redis : RedisStore} {sid c : String} {fields : Ns}
    (h : (c, fields) ∈ loadAll redis sid) :
    ((sid, c), fields) ∈ redis ∧ fields ≠ [] := by
  induction redis with
  | nil => simp [loadAll] at h
  | cons e rest ih =>
      obtain ⟨⟨s0, c0⟩, ns0⟩ := e
      rw [loadAll_cons] at h
      rcases List.mem_append.mp h with hhead | htail
      · split at hhead
        · rename_i hc
          rcases List.mem_cons.mp hhead with heq | habs
          · injection heq with h1 h2
            subst h1
            subst h2
            refine ⟨by rw [hc.1]; exact List.mem_cons_self _ _, ?_⟩
            intro hnil
            rw [hnil] at hc
            simp at hc
          · simp at habs
        · simp at hhead
      · obtain ⟨hmem, hne⟩ := ih htail
        exact ⟨List.mem_cons_of_mem _ hmem, hne⟩

theorem loadAll_redisGet {redis : RedisStore} {sid c : String} {fields : Ns}
    (hnodup : (redis.map Prod.fst).Nodup)
    (h : (c, fields) ∈ loadAll redis sid) : redisGet redis sid c = some fields := by
  induction redis with
  | nil => simp [loadAll] at h
  | cons e rest ih =>
      obtain ⟨⟨s0, c0⟩, ns0⟩ := e
      rw [List.map_cons, List.nodup_cons] at hnodup
      rw [loadAll_cons] at h
      rw [redisGet]
      rcases List.mem_append.mp h with hhead | htail
      · split at hhead
        · rename_i hc
          rcases List.mem_cons.mp hhead with heq | habs
          · injection heq with h1 h2
            subst h1
            subst h2
            rw [if_pos ⟨hc.1, rfl⟩]
          · simp at habs
        · simp at hhead
      · have hmem := (mem_loadAll htail).1
        rw [if_neg]
        · exact ih hnodup.2 htail
        · intro hk
          refine hnodup.1 ?_
          rw [← hk.1, ← hk.2] at hmem
          exact List.mem_map.mpr ⟨((s0, c0), fields), hmem, rfl⟩

theorem nssGet_append_single {acc : List (String × Ns)} {c1 c : String} {x : Ns} :
    nssGet (acc ++ [(c1, x)]) c
      = match nssGet acc c with
        | some r => some r
        | none => if c1 = c then some x else none := by
  induction acc with
  | nil => simp [nssGet]
  | cons p rest ih =>
      obtain ⟨c0, v0⟩ := p
      by_cases hc : c0 = c
      · simp [nssGet, hc]
      · simp only [List.cons_append, nssGet, if_neg hc]
        exact ih

/-- Everything `loadLoop` adds beyond the accumulator is the URL-filtered
content of one of the pending `load_all` entries. -/
theorem loadLoop_origin (reg : Registry) (qp : QP) (warm : List (String × Ns)) :
    ∀ (L : List (String × Ns)) (acc : List (String × Ns)),
      (L.map Prod.fst).Nodup →
      (∀ c, (nssGet acc c).isSome → c ∉ L.map Prod.fst) →
      ∀ c ns0, nssGet (loadLoop reg qp warm L acc) c = some ns0 →
        nssGet acc c = some ns0 ∨
        ∃ fields, (c, fields) ∈ L ∧ ns0 = filterLoaded reg qp c fields := by
  intro L
  induction L with
  | nil =>
      intro acc _ _ c ns0 h
      exact Or.inl h
  | cons e rest ih =>
      obtain ⟨c1, fields1⟩ := e
      intro acc hnodup hdisj c ns0 h
      rw [List.map_cons, List.nodup_cons] at hnodup
      rw [loadLoop] at h
      by_cases hwarm : (match nssGet warm c1 with
          | some ns0 => !ns0.isEmpty
          | none => false : Bool)
      · rw [if_pos hwarm] at h
        rcases ih acc hnodup.2
            (fun c2 h2 => fun hmem => hdisj c2 h2 (List.mem_cons_of_mem _ hmem)) c ns0 h with
          hacc | ⟨fields, hmem, hfil⟩
        · exact Or.inl hacc
        · exact Or.inr ⟨fields, List.mem_cons_of_mem _ hmem, hfil⟩
      · rw [if_neg hwarm] at h
        by_cases hemp : (filterLoaded reg qp c1 fields1).isEmpty
        · rw [if_pos hemp] at h
          rcases ih acc hnodup.2
              (fun c2 h2 => fun hmem => hdisj c2 h2 (List.mem_cons_of_mem _ hmem)) c ns0 h with
            hacc | ⟨fields, hmem, hfil⟩
          · exact Or.inl hacc
          · exact Or.inr ⟨fields, List.mem_cons_of_mem _ hmem, hfil⟩
        · rw [if_neg hemp] at h
          have hc1acc : nssGet acc c1 = none := by
            cases hx : nssGet acc c1 with
            | none => rfl
            | some r =>
                exact absurd (List.mem_cons_self c1 _)
                  (hdisj c1 (by simp [hx]) )
          have hmerge : mergeLoaded acc c1 (filterLoaded reg qp c1 fields1)
              = acc ++ [(c1, filterLoaded reg qp c1 fields1)] := by
            unfold mergeLoaded
            rw [hc1acc]
          rw [hmerge] at h
          have hpre2 : ∀ c2, (nssGet (acc ++ [(c1, filterLoaded reg qp c1 fields1)]) c2).isSome →
              c2 ∉ rest.map Prod.fst := by
            intro c2 h2 hmem
            rw [nssGet_append_single] at h2
            cases hx : nssGet acc c2 with
            | some r =>
                exact hdisj c2 (by simp [hx]) (List.mem_cons_of_mem _ hmem)
            | none =>
                rw [hx] at h2
                by_cases hc : c1 = c2
                · subst hc
                  exact hnodup.1 hmem
                · simp [hc] at h2
          rcases ih (acc ++ [(c1, filterLoaded reg qp c1 fields1)]) hnodup.2 hpre2 c ns0 h with
            hacc | ⟨fields, hmem, hfil⟩
          · rw [nssGet_append_single] at hacc
            cases hx : nssGet acc c with
            | some r =>
                rw [hx] at hacc
                exact Or.inl hacc
            | none =>
                rw [hx] at hacc
                by_cases hc : c1 = c
                · subst hc
                  rw [if_pos rfl] at hacc
                  exact Or.inr ⟨fields1, List.mem_cons_self _ _,
                    (Option.some_inj.mp hacc).symm⟩
                · simp [hc] at hacc
          · exact Or.inr ⟨fields, List.mem_cons_of_mem _ hmem, hfil⟩

/-- A field surviving the URL-priority filter was stored and is not
URL-overridden. -/
theorem filterLoaded_sound {reg : Registry} {qp : QP} {c : String} {fields : Ns}
    {f : String} {v : Value}
    (hnodup : (fields.map Prod.fst).Nodup)
    (h : nsGet (filterLoaded reg qp c fields) f = some v) :
    nsGet fields f = some v ∧
      (∀ cls fm uk, List.lookup c reg = some cls →
        List.lookup f cls.meta = some fm → fm.url_key = some uk →
        qpMem qp (cls.cfg.url_pfx ++ uk) = false) := by
  unfold filterLoaded at h
  split at h
  · rename_i cls hreg
    by_cases hgate : ((ownKeys cls).any fun k => qpMem qp k) = true
    · rw [if_pos hgate] at h
      have hmem := nsGet_mem h
      obtain ⟨hmemf, hpred⟩ := List.mem_filter.mp hmem
      refine ⟨mem_nsGet hnodup hmemf, ?_⟩
      intro cls2 fm uk hcls2 hfm huk
      rw [hreg] at hcls2
      obtain rfl : cls = cls2 := Option.some_inj.mp hcls2
      simp only [hfm, huk] at hpred
      simpa using hpred
    · rw [if_neg hgate] at h
      refine ⟨h, ?_⟩
      intro cls2 fm uk hcls2 hfm huk
      rw [hreg] at hcls2
      obtain rfl : cls = cls2 := Option.some_inj.mp hcls2
      have hk := ownKeys_mem hfm huk
      rw [List.any_eq_true] at hgate
      push_neg at hgate
      have h2 := hgate _ hk
      simpa using h2
  · rename_i hreg
    refine ⟨h, ?_⟩
    intro cls fm uk hcls
    rw [hreg] at hcls
    cases hcls

theorem loadAll_nodup {redis : RedisStore} {sid : String}
    (hnodup : (redis.map Prod.fst).Nodup) :
    ((loadAll redis sid).map Prod.fst).Nodup := by
  induction redis with
  | nil => simp [loadAll]
  | cons e rest ih =>
      obtain ⟨⟨s0, c0⟩, ns0⟩ := e
      rw [List.map_cons, List.nodup_cons] at hnodup
      rw [loadAll_cons]
      by_cases hc : s0 = sid ∧ ns0.isEmpty = false
      · rw [if_pos hc]
        rw [List.singleton_append, List.map_cons, List.nodup_cons]
        refine ⟨?_, ih hnodup.2⟩
        intro hmem
        obtain ⟨⟨c1, fields⟩, hmem1, heq⟩ := List.mem_map.mp hmem
        have heq2 : c1 = c0 := heq
        have hmem2 := (mem_loadAll hmem1).1
        rw [heq2, ← hc.1] at hmem2
        exact hnodup.1 (List.mem_map.mpr ⟨((s0, c0), fields), hmem2, rfl⟩)
      · rw [if_neg hc]
        rw [List.nil_append]
        exact ih hnodup.2

end StPageState

namespace StPageState

theorem syncUrl_state {reg : Registry} {cls : PSClass} {f : String} {value : Value}
    {st st2 : EngState} (hok : syncUrl reg cls f value st = .ok st2) :
    st2.ns = st.ns ∧ st2.classAttrs = st.classAttrs := by
  unfold syncUrl at hok
  repeat' split at hok
  all_goals try cases hok
  all_goals refine ⟨?_, ?_⟩ <;> (repeat' split) <;> rfl

theorem syncUrl_writes {reg : Registry} {cls : PSClass} {f : String} {fm : FieldMeta}
    {uk : String} {value : Value} {st st2 : EngState}
    (hmeta : List.lookup f cls.meta = some fm)
    (huk : fm.url_key = some uk)
    (hok : syncUrl reg cls f value st = .ok st2)
    (hval : ¬(value = .vNone ∧ cls.cfg.ignore_none_url = true)) :
    qpMem st2.qp (cls.cfg.url_pfx ++ uk) = true := by
  cases value with
  | vNone =>
      have hig : ¬ cls.cfg.ignore_none_url = true := fun hc => hval ⟨rfl, hc⟩
      simp only [syncUrl, hmeta, huk, if_neg hig] at hok
      split at hok
      · obtain rfl := Except.ok.inj hok
        show (qpGet (qpSet _ _ _) _).isSome = true
        rw [qpGet_qpSet_self]
        rfl
      · cases hok
  | vBool b =>
      simp only [syncUrl, hmeta, huk] at hok
      split at hok
      · obtain rfl := Except.ok.inj hok
        show (qpGet (qpSet _ _ _) _).isSome = true
        rw [qpGet_qpSet_self]
        rfl
      · cases hok
  | vInt i =>
      simp only [syncUrl, hmeta, huk] at hok
      split at hok
      · obtain rfl := Except.ok.inj hok
        show (qpGet (qpSet _ _ _) _).isSome = true
        rw [qpGet_qpSet_self]
        rfl
      · cases hok
  | vFloat x =>
      simp only [syncUrl, hmeta, huk] at hok
      split at hok
      · obtain rfl := Except.ok.inj hok
        show (qpGet (qpSet _ _ _) _).isSome = true
        rw [qpGet_qpSet_self]
        rfl
      · cases hok
  | vStr s =>
      simp only [syncUrl, hmeta, huk] at hok
      split at hok
      · obtain rfl := Except.ok.inj hok
        show (qpGet (qpSet _ _ _) _).isSome = true
        rw [qpGet_qpSet_self]
        rfl
      · cases hok
  | vDate s =>
      simp only [syncUrl, hmeta, huk] at hok
      split at hok
      · obtain rfl := Except.ok.inj hok
        show (qpGet (qpSet _ _ _) _).isSome = true
        rw [qpGet_qpSet_self]
        rfl
      · cases hok
  | vDatetime s =>
      simp only [syncUrl, hmeta, huk] at hok
      split at hok
      · obtain rfl := Except.ok.inj hok
        show (qpGet (qpSet _ _ _) _).isSome = true
        rw [qpGet_qpSet_self]
        rfl
      · cases hok
  | vTime s =>
      simp only [syncUrl, hmeta, huk] at hok
      split at hok
      · obtain rfl := Except.ok.inj hok
        show (qpGet (qpSet _ _ _) _).isSome = true
        rw [qpGet_qpSet_self]
        rfl
      · cases hok
  | vBytes bs =>
      simp only [syncUrl, hmeta, huk] at hok
      split at hok
      · obtain rfl := Except.ok.inj hok
        show (qpGet (qpSet _ _ _) _).isSome = true
        rw [qpGet_qpSet_self]
        rfl
      · cases hok
  | vList l =>
      simp only [syncUrl, hmeta, huk] at hok
      split at hok
      · obtain rfl := Except.ok.inj hok
        show (qpGet (qpSet _ _ _) _).isSome = true
        rw [qpGet_qpSet_self]
        rfl
      · cases hok
  | vTuple l =>
      simp only [syncUrl, hmeta, huk] at hok
      split at hok
      · obtain rfl := Except.ok.inj hok
        show (qpGet (qpSet _ _ _) _).isSome = true
        rw [qpGet_qpSet_self]
        rfl
      · cases hok
  | vSet l =>
      simp only [syncUrl, hmeta, huk] at hok
      split at hok
      · obtain rfl := Except.ok.inj hok
        show (qpGet (qpSet _ _ _) _).isSome = true
        rw [qpGet_qpSet_self]
        rfl
      · cases hok
  | vDict d =>
      simp only [syncUrl, hmeta, huk] at hok
      split at hok
      · obtain rfl := Except.ok.inj hok
        show (qpGet (qpSet _ _ _) _).isSome = true
        rw [qpGet_qpSet_self]
        rfl
      · cases hok

theorem syncUrl_deletes {reg : Registry} {cls : PSClass} {f : String} {fm : FieldMeta}
    {uk : String} {st st2 : EngState}
    (hmeta : List.lookup f cls.meta = some fm)
    (huk : fm.url_key = some uk)
    (hig : cls.cfg.ignore_none_url = true)
    (hok : syncUrl reg cls f .vNone st = .ok st2) :
    qpMem st2.qp (cls.cfg.url_pfx ++ uk) = false := by
  simp only [syncUrl, hmeta, huk, if_pos hig] at hok
  obtain rfl := Except.ok.inj hok
  split <;> split
  all_goals first
    | (show (qpGet (qpDel _ _) _).isSome = false
       rw [qpGet_qpDel_self]
       rfl)
    | (rename_i hno
       exact Bool.of_not_eq_true hno)

end StPageState

namespace StPageState

theorem qpMem_qpDel_le {qp : QP} {k k2 : String} (h : qpMem (qpDel qp k) k2 = true) :
    qpMem qp k2 = true := by
  by_cases he : k2 = k
  · subst he
    unfold qpMem at h
    rw [qpGet_qpDel_self] at h
    cases h
  · unfold qpMem at h ⊢
    rwa [qpGet_qpDel_ne _ _ _ he] at h

theorem qpMem_qpSet_cases {qp : QP} {k v k2 : String}
    (h : qpMem (qpSet qp k v) k2 = true) : k2 = k ∨ qpMem qp k2 = true := by
  by_cases he : k2 = k
  · exact Or.inl he
  · unfold qpMem at h
    rw [qpGet_qpSet_ne _ _ _ _ he] at h
    exact Or.inr h

theorem selfishCleanup_mem {reg : Registry} {cls : PSClass} {st : EngState} {k : String}
    (h : qpMem (selfishCleanup reg cls st).qp k = true) : k ∈ allowedKeys reg cls := by
  unfold qpMem at h
  rw [selfishCleanup_qp] at h
  by_cases hc : (allowedKeys reg cls).contains k = true
  · exact List.mem_of_elem_eq_true hc
  · rw [if_neg hc] at h
    cases h

theorem selfishCleanup_preserve {reg : Registry} {cls : PSClass} {st : EngState} {k : String}
    (hallowed : k ∈ allowedKeys reg cls) (h : qpMem st.qp k = true) :
    qpMem (selfishCleanup reg cls st).qp k = true := by
  unfold qpMem
  rw [selfishCleanup_qp, if_pos (List.elem_eq_true_of_mem hallowed)]
  exact h

theorem syncUrl_subset {reg : Registry} {cls : PSClass} {f : String} {fm : FieldMeta}
    {uk : String} {value : Value} {st st2 : EngState} {k : String}
    (hsel : cls.cfg.url_selfish = true)
    (hmeta : List.lookup f cls.meta = some fm)
    (huk : fm.url_key = some uk)
    (hok : syncUrl reg cls f value st = .ok st2)
    (hk : qpMem st2.qp k = true) :
    k ∈ allowedKeys reg cls := by
  simp only [syncUrl, hmeta, huk, hsel, if_true] at hok
  repeat' split at hok
  all_goals try cases hok
  all_goals first
    | exact selfishCleanup_mem (qpMem_qpDel_le hk)
    | exact selfishCleanup_mem hk
    | (rcases qpMem_qpSet_cases hk with rfl | hmem
       · exact ownKeys_subset_allowed (ownKeys_mem hmeta huk)
       · exact selfishCleanup_mem hmem)

theorem syncUrl_preserve {reg : Registry} {cls : PSClass} {f : String} {value : Value}
    {st st2 : EngState} {k : String}
    (hok : syncUrl reg cls f value st = .ok st2)
    (hallowed : k ∈ allowedKeys reg cls)
    (hne : ∀ fm uk, List.lookup f cls.meta = some fm → fm.url_key = some uk →
      k ≠ cls.cfg.url_pfx ++ uk)
    (hk : qpMem st.qp k = true) : qpMem st2.qp k = true := by
  cases hmeta : List.lookup f cls.meta with
  | none =>
      simp only [syncUrl, hmeta] at hok
      obtain rfl := Except.ok.inj hok
      exact hk
  | some fm =>
      cases huk : fm.url_key with
      | none =>
          simp only [syncUrl, hmeta, huk] at hok
          obtain rfl := Except.ok.inj hok
          exact hk
      | some uk =>
          have hne2 : k ≠ cls.cfg.url_pfx ++ uk := hne fm uk hmeta huk
          simp only [syncUrl, hmeta, huk] at hok
          repeat' split at hok
          all_goals try cases hok
          all_goals first
            | (show (qpGet (qpSet _ _ _) _).isSome = true
               rw [qpGet_qpSet_ne _ _ _ _ hne2]
               first
                 | exact selfishCleanup_preserve hallowed hk
                 | exact hk)
            | (show (qpGet (qpDel _ _) _).isSome = true
               rw [qpGet_qpDel_ne _ _ _ hne2]
               first
                 | exact selfishCleanup_preserve hallowed hk
                 | exact hk)
            | exact selfishCleanup_preserve hallowed hk
            | exact hk

end StPageState

namespace StPageState

/-- The per-field postcondition established by `_restore_url`: a field with an
external key has an in-memory value, and its prefixed key is present in the
external store unless the value is `None` under `ignore_none_url`. -/
def restoredInv (cls : PSClass) (st : EngState) (p : String × FieldMeta) : Prop :=
  ∀ uk, p.2.url_key = some uk →
    ∃ w, nsGet st.ns p.1 = some w ∧
      ((w = .vNone ∧ cls.cfg.ignore_none_url = true) ∨
        qpMem st.qp (cls.cfg.url_pfx ++ uk) = true)

theorem restoreStep_noop {reg : Registry} {cls : PSClass} {f : String} {fm : FieldMeta}
    {st : EngState} (hinv : restoredInv cls st (f, fm)) :
    restoreStep reg cls f fm st = .ok st := by
  cases huk : fm.url_key with
  | none => simp [restoreStep, huk]
  | some uk =>
      obtain ⟨w, hw, hcase⟩ := hinv uk huk
      cases w with
      | vNone =>
          rcases hcase with ⟨-, hig⟩ | hmem
          · simp [restoreStep, huk, hw, hig]
          · by_cases hig : cls.cfg.ignore_none_url = true
            · simp [restoreStep, huk, hw, hig]
            · simp [restoreStep, huk, hw, hig, hmem]
          | vBool b =>
              rcases hcase with ⟨habs, -⟩ | hmem
              · cases habs
              · simp [restoreStep, huk, hw, hmem]
          | vInt i =>
              rcases hcase with ⟨habs, -⟩ | hmem
              · cases habs
              · simp [restoreStep, huk, hw, hmem]
          | vFloat x =>
              rcases hcase with ⟨habs, -⟩ | hmem
              · cases habs
              · simp [restoreStep, huk, hw, hmem]
          | vStr sv =>
              rcases hcase with ⟨habs, -⟩ | hmem
              · cases habs
              · simp [restoreStep, huk, hw, hmem]
          | vDate sv =>
              rcases hcase with ⟨habs, -⟩ | hmem
              · cases habs
              · simp [restoreStep, huk, hw, hmem]
          | vDatetime sv =>
              rcases hcase with ⟨habs, -⟩ | hmem
              · cases habs
              · simp [restoreStep, huk, hw, hmem]
          | vTime sv =>
              rcases hcase with ⟨habs, -⟩ | hmem
              · cases habs
              · simp [restoreStep, huk, hw, hmem]
          | vBytes bs =>
              rcases hcase with ⟨habs, -⟩ | hmem
              · cases habs
              · simp [restoreStep, huk, hw, hmem]
          | vList l =>
              rcases hcase with ⟨habs, -⟩ | hmem
              · cases habs
              · simp [restoreStep, huk, hw, hmem]
          | vTuple l =>
              rcases hcase with ⟨habs, -⟩ | hmem
              · cases habs
              · simp [restoreStep, huk, hw, hmem]
          | vSet l =>
              rcases hcase with ⟨habs, -⟩ | hmem
              · cases habs
              · simp [restoreStep, huk, hw, hmem]
          | vDict d =>
              rcases hcase with ⟨habs, -⟩ | hmem
              · cases habs
              · simp [restoreStep, huk, hw, hmem]

theorem restoreStep_post {reg : Registry} {cls : PSClass} {f : String} {fm : FieldMeta}
    {st st2 : EngState} (hok : restoreStep reg cls f fm st = .ok st2) :
    restoredInv cls st2 (f, fm) := by
  intro uk huk
  replace huk : fm.url_key = some uk := huk
  cases hv : nsGet st.ns f with
  | none =>
      simp only [restoreStep, huk, hv] at hok
      cases hin : innerSetattr reg cls f (initValue fm f st) st with
      | error e =>
          simp only [hin] at hok
          cases hok
      | ok stm =>
          simp only [hin] at hok
          have hns : stm.ns = nsSet st.ns f (initValue fm f st) := by
            unfold innerSetattr at hin
            exact (syncUrl_state hin).1
          cases hvv : initValue fm f st with
          | vNone =>
              simp only [hvv] at hok hns
              by_cases hig : cls.cfg.ignore_none_url = true
              · rw [if_pos hig] at hok
                obtain rfl := Except.ok.inj hok
                exact ⟨.vNone, by rw [hns]; exact nsGet_nsSet_self _ _ _,
                  Or.inl ⟨rfl, hig⟩⟩
              · rw [if_neg hig] at hok
                obtain ⟨hns2, -, -, -, hfk⟩ := restoreWriteSpec hok
                exact ⟨.vNone, by rw [hns2, hns]; exact nsGet_nsSet_self _ _ _,
                  Or.inr hfk⟩
          | vBool b =>
              simp only [hvv] at hok hns
              obtain ⟨hns2, -, -, -, hfk⟩ := restoreWriteSpec hok
              exact ⟨_, by rw [hns2, hns]; exact nsGet_nsSet_self _ _ _, Or.inr hfk⟩
          | vInt i =>
              simp only [hvv] at hok hns
              obtain ⟨hns2, -, -, -, hfk⟩ := restoreWriteSpec hok
              exact ⟨_, by rw [hns2, hns]; exact nsGet_nsSet_self _ _ _, Or.inr hfk⟩
          | vFloat x =>
              simp only [hvv] at hok hns
              obtain ⟨hns2, -, -, -, hfk⟩ := restoreWriteSpec hok
              exact ⟨_, by rw [hns2, hns]; exact nsGet_nsSet_self _ _ _, Or.inr hfk⟩
          | vStr sv =>
              simp only [hvv] at hok hns
              obtain ⟨hns2, -, -, -, hfk⟩ := restoreWriteSpec hok
              exact ⟨_, by rw [hns2, hns]; exact nsGet_nsSet_self _ _ _, Or.inr hfk⟩
          | vDate sv =>
              simp only [hvv] at hok hns
              obtain ⟨hns2, -, -, -, hfk⟩ := restoreWriteSpec hok
              exact ⟨_, by rw [hns2, hns]; exact nsGet_nsSet_self _ _ _, Or.inr hfk⟩
          | vDatetime sv =>
              simp only [hvv] at hok hns
              obtain ⟨hns2, -, -, -, hfk⟩ := restoreWriteSpec hok
              exact ⟨_, by rw [hns2, hns]; exact nsGet_nsSet_self _ _ _, Or.inr hfk⟩
          | vTime sv =>
              simp only [hvv] at hok hns
              obtain ⟨hns2, -, -, -, hfk⟩ := restoreWriteSpec hok
              exact ⟨_, by rw [hns2, hns]; exact nsGet_nsSet_self _ _ _, Or.inr hfk⟩
          | vBytes bs =>
              simp only [hvv] at hok hns
              obtain ⟨hns2, -, -, -, hfk⟩ := restoreWriteSpec hok
              exact ⟨_, by rw [hns2, hns]; exact nsGet_nsSet_self _ _ _, Or.inr hfk⟩
          | vList l =>
              simp only [hvv] at hok hns
              obtain ⟨hns2, -, -, -, hfk⟩ := restoreWriteSpec hok
              exact ⟨_, by rw [hns2, hns]; exact nsGet_nsSet_self _ _ _, Or.inr hfk⟩
          | vTuple l =>
              simp only [hvv] at hok hns
              obtain ⟨hns2, -, -, -, hfk⟩ := restoreWriteSpec hok
              exact ⟨_, by rw [hns2, hns]; exact nsGet_nsSet_self _ _ _, Or.inr hfk⟩
          | vSet l =>
              simp only [hvv] at hok hns
              obtain ⟨hns2, -, -, -, hfk⟩ := restoreWriteSpec hok
              exact ⟨_, by rw [hns2, hns]; exact nsGet_nsSet_self _ _ _, Or.inr hfk⟩
          | vDict d =>
              simp only [hvv] at hok hns
              obtain ⟨hns2, -, -, -, hfk⟩ := restoreWriteSpec hok
              exact ⟨_, by rw [hns2, hns]; exact nsGet_nsSet_self _ _ _, Or.inr hfk⟩
  | some v =>
      cases v with
      | vNone =>
          by_cases hig : cls.cfg.ignore_none_url = true
          · simp only [restoreStep, huk, hv, if_pos hig] at hok
            obtain rfl := Except.ok.inj hok
            exact ⟨.vNone, hv, Or.inl ⟨rfl, hig⟩⟩
          · simp only [restoreStep, huk, hv, if_neg hig] at hok
            obtain ⟨hns2, -, -, -, hfk⟩ := restoreWriteSpec hok
            exact ⟨.vNone, by rw [hns2]; exact hv, Or.inr hfk⟩
      | vBool b =>
          simp only [restoreStep, huk, hv] at hok
          obtain ⟨hns2, -, -, -, hfk⟩ := restoreWriteSpec hok
          exact ⟨_, by rw [hns2]; exact hv, Or.inr hfk⟩
      | vInt i =>
          simp only [restoreStep, huk, hv] at hok
          obtain ⟨hns2, -, -, -, hfk⟩ := restoreWriteSpec hok
          exact ⟨_, by rw [hns2]; exact hv, Or.inr hfk⟩
      | vFloat x =>
          simp only [restoreStep, huk, hv] at hok
          obtain ⟨hns2, -, -, -, hfk⟩ := restoreWriteSpec hok
          exact ⟨_, by rw [hns2]; exact hv, Or.inr hfk⟩
      | vStr sv =>
          simp only [restoreStep, huk, hv] at hok
          obtain ⟨hns2, -, -, -, hfk⟩ := restoreWriteSpec hok
          exact ⟨_, by rw [hns2]; exact hv, Or.inr hfk⟩
      | vDate sv =>
          simp only [restoreStep, huk, hv] at hok
          obtain ⟨hns2, -, -, -, hfk⟩ := restoreWriteSpec hok
          exact ⟨_, by rw [hns2]; exact hv, Or.inr hfk⟩
      | vDatetime sv =>
          simp only [restoreStep, huk, hv] at hok
          obtain ⟨hns2, -, -, -, hfk⟩ := restoreWriteSpec hok
          exact ⟨_, by rw [hns2]; exact hv, Or.inr hfk⟩
      | vTime sv =>
          simp only [restoreStep, huk, hv] at hok
          obtain ⟨hns2, -, -, -, hfk⟩ := restoreWriteSpec hok
          exact ⟨_, by rw [hns2]; exact hv, Or.inr hfk⟩
      | vBytes bs =>
          simp only [restoreStep, huk, hv] at hok
          obtain ⟨hns2, -, -, -, hfk⟩ := restoreWriteSpec hok
          exact ⟨_, by rw [hns2]; exact hv, Or.inr hfk⟩
      | vList l =>
          simp only [restoreStep, huk, hv] at hok
          obtain ⟨hns2, -, -, -, hfk⟩ := restoreWriteSpec hok
          exact ⟨_, by rw [hns2]; exact hv, Or.inr hfk⟩
      | vTuple l =>
          simp only [restoreStep, huk, hv] at hok
          obtain ⟨hns2, -, -, -, hfk⟩ := restoreWriteSpec hok
          exact ⟨_, by rw [hns2]; exact hv, Or.inr hfk⟩
      | vSet l =>
          simp only [restoreStep, huk, hv] at hok
          obtain ⟨hns2, -, -, -, hfk⟩ := restoreWriteSpec hok
          exact ⟨_, by rw [hns2]; exact hv, Or.inr hfk⟩
      | vDict d =>
          simp only [restoreStep, huk, hv] at hok
          obtain ⟨hns2, -, -, -, hfk⟩ := restoreWriteSpec hok
          exact ⟨_, by rw [hns2]; exact hv, Or.inr hfk⟩

theorem restoreStep_ns {reg : Registry} {cls : PSClass} {f : String} {fm : FieldMeta}
    {st st2 : EngState} {g : String}
    (hok : restoreStep reg cls f fm st = .ok st2) (hg : g ≠ f) :
    nsGet st2.ns g = nsGet st.ns g := by
  cases huk : fm.url_key with
  | none =>
      simp only [restoreStep, huk] at hok
      obtain rfl := Except.ok.inj hok
      rfl
  | some uk =>
      cases hv : nsGet st.ns f with
      | some v =>
          have hpres : ∀ uk2, fm.url_key = some uk2 → (nsGet st.ns f).isSome = true := by
            intro uk2 _
            simp [hv]
          rw [(restoreStep_present hpres hok).1]
      | none =>
          simp only [restoreStep, huk, hv] at hok
          cases hin : innerSetattr reg cls f (initValue fm f st) st with
          | error e =>
              simp only [hin] at hok
              cases hok
          | ok stm =>
              simp only [hin] at hok
              have hns : stm.ns = nsSet st.ns f (initValue fm f st) := by
                unfold innerSetattr at hin
                exact (syncUrl_state hin).1
              repeat' split at hok
              all_goals try cases hok
              all_goals try simp only [writeParam]
              all_goals rw [hns]
              all_goals exact nsGet_nsSet_ne _ _ _ _ hg

theorem restoreStep_preserve {reg : Registry} {cls : PSClass} {f : String} {fm : FieldMeta}
    {st st2 : EngState} {k : String}
    (hmeta : List.lookup f cls.meta = some fm)
    (hok : restoreStep reg cls f fm st = .ok st2)
    (hallowed : k ∈ allowedKeys reg cls)
    (hne : ∀ uk, fm.url_key = some uk → k ≠ cls.cfg.url_pfx ++ uk)
    (hk : qpMem st.qp k = true) : qpMem st2.qp k = true := by
  cases huk : fm.url_key with
  | none =>
      simp only [restoreStep, huk] at hok
      obtain rfl := Except.ok.inj hok
      exact hk
  | some uk =>
      have hne2 : k ≠ cls.cfg.url_pfx ++ uk := hne uk huk
      cases hv : nsGet st.ns f with
      | some v =>
          have hpres : ∀ uk2, fm.url_key = some uk2 → (nsGet st.ns f).isSome = true := by
            intro uk2 _
            simp [hv]
          obtain ⟨v', hv'⟩ := Option.isSome_iff_exists.mp hk
          have := (restoreStep_present hpres hok).2.2.1 k v' hv'
          simp [qpMem, this]
      | none =>
          simp only [restoreStep, huk, hv] at hok
          cases hin : innerSetattr reg cls f (initValue fm f st) st with
          | error e =>
              simp only [hin] at hok
              cases hok
          | ok stm =>
              simp only [hin] at hok
              have hkm : qpMem stm.qp k = true := by
                unfold innerSetattr at hin
                refine syncUrl_preserve hin hallowed ?_ hk
                intro fm2 uk2 hm2 hu2
                rw [hmeta] at hm2
                obtain rfl := Option.some.inj hm2
                rw [huk] at hu2
                obtain rfl := Option.some.inj hu2
                exact hne2
              repeat' split at hok
              all_goals try cases hok
              all_goals first
                | (show (qpGet (qpSet _ _ _) _).isSome = true
                   rw [qpGet_qpSet_ne _ _ _ _ hne2]
                   exact hkm)
                | exact hkm

end StPageState

namespace StPageState

theorem restoreStep_keepInv {reg : Registry} {cls : PSClass} {f : String} {fm : FieldMeta}
    {g : String} {gm : FieldMeta} {st st2 : EngState}
    (hmeta : List.lookup f cls.meta = some fm)
    (hok : restoreStep reg cls f fm st = .ok st2)
    (hg : g ≠ f)
    (hgall : ∀ ukg, gm.url_key = some ukg →
      (cls.cfg.url_pfx ++ ukg) ∈ allowedKeys reg cls)
    (hdist : ∀ ukf ukg, fm.url_key = some ukf → gm.url_key = some ukg →
      cls.cfg.url_pfx ++ ukg ≠ cls.cfg.url_pfx ++ ukf)
    (hinv : restoredInv cls st (g, gm)) : restoredInv cls st2 (g, gm) := by
  intro ukg hukg
  replace hukg : gm.url_key = some ukg := hukg
  obtain ⟨w, hw, hcase⟩ := hinv ukg hukg
  refine ⟨w, ?_, ?_⟩
  · rw [restoreStep_ns hok hg]
    exact hw
  · rcases hcase with hl | hr
    · exact Or.inl hl
    · exact Or.inr (restoreStep_preserve hmeta hok (hgall ukg hukg)
        (fun ukf hukf => hdist ukf ukg hukf hukg) hr)

theorem restoreFields_keepInv {reg : Registry} {cls : PSClass} {g : String} {gm : FieldMeta} :
    ∀ (L : List (String × FieldMeta)) (st st2 : EngState),
      (∀ p ∈ L, List.lookup p.1 cls.meta = some p.2) →
      (∀ p ∈ L, p.1 ≠ g) →
      (∀ ukg, gm.url_key = some ukg →
        (cls.cfg.url_pfx ++ ukg) ∈ allowedKeys reg cls) →
      (∀ p ∈ L, ∀ ukf ukg, p.2.url_key = some ukf → gm.url_key = some ukg →
        cls.cfg.url_pfx ++ ukg ≠ cls.cfg.url_pfx ++ ukf) →
      restoreFields reg cls L st = .ok st2 →
      restoredInv cls st (g, gm) → restoredInv cls st2 (g, gm) := by
  intro L
  induction L with
  | nil =>
      intro st st2 _ _ _ _ hok hinv
      obtain rfl := Except.ok.inj hok
      exact hinv
  | cons p rest ih =>
      intro st st2 hlk hne hgall hdist hok hinv
      obtain ⟨f, fm⟩ := p
      cases hstep : restoreStep reg cls f fm st with
      | error e =>
          rw [restoreFields, hstep] at hok
          cases hok
      | ok stm =>
          rw [restoreFields, hstep] at hok
          have hinv2 : restoredInv cls stm (g, gm) :=
            restoreStep_keepInv (hlk (f, fm) (List.mem_cons_self _ _)) hstep
              (Ne.symm (hne (f, fm) (List.mem_cons_self _ _))) hgall
              (fun ukf ukg h1 h2 => hdist (f, fm) (List.mem_cons_self _ _) ukf ukg h1 h2)
              hinv
          exact ih stm st2 (fun q hq => hlk q (List.mem_cons_of_mem _ hq))
            (fun q hq => hne q (List.mem_cons_of_mem _ hq)) hgall
            (fun q hq => hdist q (List.mem_cons_of_mem _ hq)) hok hinv2

theorem restoreFields_inv {reg : Registry} {cls : PSClass} :
    ∀ (L : List (String × FieldMeta)) (st st2 : EngState),
      (L.map Prod.fst).Nodup →
      (∀ p ∈ L, List.lookup p.1 cls.meta = some p.2) →
      (∀ p ∈ L, ∀ uk, p.2.url_key = some uk →
        (cls.cfg.url_pfx ++ uk) ∈ allowedKeys reg cls) →
      (∀ p ∈ L, ∀ q ∈ L, ∀ up uq, p.2.url_key = some up → q.2.url_key = some uq →
        p.1 ≠ q.1 → cls.cfg.url_pfx ++ up ≠ cls.cfg.url_pfx ++ uq) →
      restoreFields reg cls L st = .ok st2 →
      ∀ p ∈ L, restoredInv cls st2 p := by
  intro L
  induction L with
  | nil =>
      intro st st2 _ _ _ _ _ p hp
      cases hp
  | cons hd rest ih =>
      intro st st2 hnodup hlk hall hdist hok p hp
      obtain ⟨f, fm⟩ := hd
      rw [List.map_cons, List.nodup_cons] at hnodup
      have hfq : ∀ q ∈ rest, q.1 ≠ f := by
        intro q hq hqf
        exact hnodup.1 (hqf ▸ List.mem_map.mpr ⟨q, hq, rfl⟩)
      cases hstep : restoreStep reg cls f fm st with
      | error e =>
          simp only [restoreFields, hstep] at hok
          cases hok
      | ok stm =>
          simp only [restoreFields, hstep] at hok
          rcases List.mem_cons.mp hp with rfl | htail
          · exact restoreFields_keepInv rest stm st2
              (fun q hq => hlk q (List.mem_cons_of_mem _ hq))
              (fun q hq => hfq q hq)
              (fun ukf hukf => hall (f, fm) (List.mem_cons_self _ _) ukf hukf)
              (fun q hq ukq ukf hukq hukf =>
                Ne.symm (hdist q (List.mem_cons_of_mem _ hq) (f, fm)
                  (List.mem_cons_self _ _) ukq ukf hukq hukf (hfq q hq)))
              hok (restoreStep_post hstep)
          · exact ih stm st2 hnodup.2
              (fun q hq => hlk q (List.mem_cons_of_mem _ hq))
              (fun q hq => hall q (List.mem_cons_of_mem _ hq))
              (fun q hq r hr => hdist q (List.mem_cons_of_mem _ hq)
                r (List.mem_cons_of_mem _ hr))
              hok p htail

theorem restoreFields_noop {reg : Registry} {cls : PSClass} :
    ∀ (L : List (String × FieldMeta)) (st : EngState),
      (∀ p ∈ L, restoredInv cls st p) →
      restoreFields reg cls L st = .ok st := by
  intro L
  induction L with
  | nil =>
      intro st _
      rfl
  | cons hd rest ih =>
      intro st hinv
      obtain ⟨f, fm⟩ := hd
      rw [restoreFields, restoreStep_noop (hinv (f, fm) (List.mem_cons_self _ _))]
      exact ih st (fun p hp => hinv p (List.mem_cons_of_mem _ hp))

end StPageState

namespace StPageState

/-- C5 (amended): when the class declares each field once and distinct fields
map to distinct prefixed external keys, a second immediate run of the Restore
procedure returns the state of the first run unchanged: it performs no
additional external-store mutation. -/
theorem restoreUrl_idempotent {reg : Registry} {cls : PSClass} {st st1 : EngState}
    (hnodup : (cls.meta.map Prod.fst).Nodup)
    (hdist : ∀ p ∈ cls.meta, ∀ q ∈ cls.meta, ∀ up uq, p.2.url_key = some up →
      q.2.url_key = some uq → p.1 ≠ q.1 →
      cls.cfg.url_pfx ++ up ≠ cls.cfg.url_pfx ++ uq)
    (h1 : restoreUrl reg cls st = .ok st1) :
    restoreUrl reg cls st1 = .ok st1 := by
  have hlk : ∀ p ∈ cls.meta, List.lookup p.1 cls.meta = some p.2 := by
    intro p hp
    obtain ⟨f, fm⟩ := p
    exact mem_lookup hnodup hp
  have hall : ∀ p ∈ cls.meta, ∀ uk, p.2.url_key = some uk →
      (cls.cfg.url_pfx ++ uk) ∈ allowedKeys reg cls := fun p hp uk huk =>
    ownKeys_subset_allowed (ownKeys_mem (hlk p hp) huk)
  have hinv := restoreFields_inv cls.meta st st1 hnodup hlk hall hdist h1
  exact restoreFields_noop cls.meta st1 hinv

end StPageState

namespace StPageState

/-- A class with two fields sharing the external key `"k"`: `a` holds `1`
in memory, while `b` is uninitialized, has default `None`, and carries a
`value_map` that sends `None` to the URL string `"1"`. -/
def c5cls : PSClass :=
  { name := "C5",
    cfg := { url_selfish := false, url_pfx := "", ignore_none_url := true,
             restore_url_on_touch := true, share_url_with := [] },
    meta := [("a", { default := .vNone, url_key := some "k", value_map := none,
                     dtype := .tInt }),
             ("b", { default := .vNone, url_key := some "k",
                     value_map := some [(.vNone, "1")], dtype := .tInt })] }

def c5st0 : EngState := { qp := [], ns := [("a", .vInt 1)], classAttrs := [], trace := [] }

/-- C5 counterexample: with a duplicated external key, the first Restore run
ends with `"k"` absent from the store (field `b`'s lazy initialization
deletes it), while the second run re-creates it — an additional mutation. -/
theorem restoreUrl_idempotent_cex :
    (restoreUrl [] c5cls c5st0).map (fun s => qpMem s.qp "k") = .ok false ∧
    ((restoreUrl [] c5cls c5st0).bind (fun s1 => restoreUrl [] c5cls s1)).map
      (fun s => qpMem s.qp "k") = .ok true := by
  constructor <;>
    simp [restoreUrl, restoreFields, restoreStep, innerSetattr, syncUrl, initValue,
      convertFromURL, convertCore, workingValue, reverseLookup, nsGet, nsSet,
      qpGet, qpSet, qpDel, qpMem, writeParam, deleteParam, selfishCleanup,
      convertToURL, forwardLookup, c5cls, c5st0, Except.map, Except.bind,
      List.lookup, natToStr, natChars, intToStr, digChar]

end StPageState

namespace StPageState

def c5wcls : PSClass :=
  { name := "W",
    cfg := {},
    meta := [("page", { default := .vInt 1, url_key := some "page",
                        value_map := none, dtype := .tInt })] }

def c5wst0 : EngState := { qp := [], ns := [("page", .vInt 2)], classAttrs := [], trace := [] }

def c5wst1 : EngState :=
  { qp := [("page", "2")], ns := [("page", .vInt 2)], classAttrs := [],
    trace := [.setParam "page" "2"] }

theorem restoreUrl_idempotent_witness :
    ((c5wcls.meta.map Prod.fst).Nodup ∧
      (∀ p ∈ c5wcls.meta, ∀ q ∈ c5wcls.meta, ∀ up uq, p.2.url_key = some up →
        q.2.url_key = some uq → p.1 ≠ q.1 →
        c5wcls.cfg.url_pfx ++ up ≠ c5wcls.cfg.url_pfx ++ uq) ∧
      restoreUrl [] c5wcls c5wst0 = .ok c5wst1) ∧
    restoreUrl [] c5wcls c5wst1 = .ok c5wst1 := by
  have h1 : restoreUrl [] c5wcls c5wst0 = .ok c5wst1 := by
    simp [restoreUrl, restoreFields, restoreStep, innerSetattr, syncUrl, initValue,
      convertFromURL, convertCore, workingValue, reverseLookup, nsGet, nsSet,
      qpGet, qpSet, qpDel, qpMem, writeParam, deleteParam, selfishCleanup,
      convertToURL, forwardLookup, c5wcls, c5wst0, c5wst1, Except.map, Except.bind,
      List.lookup, natToStr, natChars, intToStr, digChar]
  have hnodup : (c5wcls.meta.map Prod.fst).Nodup := by
    simp [c5wcls]
  have hdist : ∀ p ∈ c5wcls.meta, ∀ q ∈ c5wcls.meta, ∀ up uq, p.2.url_key = some up →
      q.2.url_key = some uq → p.1 ≠ q.1 →
      c5wcls.cfg.url_pfx ++ up ≠ c5wcls.cfg.url_pfx ++ uq := by
    intro p hp q hq up uq hup huq hne
    simp [c5wcls] at hp hq
    rw [hp, hq] at hne
    exact absurd rfl hne
  exact ⟨⟨hnodup, hdist, h1⟩, restoreUrl_idempotent hnodup hdist h1⟩

end StPageState

namespace StPageState

/-- C2 (amended): when every field that has an external key already holds an
in-memory value, Restore writes only to prefixed keys currently absent from
the external store; every key present before keeps its exact value. -/
theorem restoreUrl_no_overwrite {reg : Registry} {cls : PSClass} {st st2 : EngState}
    {k v : String}
    (hpres : ∀ p ∈ cls.meta, ∀ uk, p.2.url_key = some uk →
      (nsGet st.ns p.1).isSome = true)
    (hok : restoreUrl reg cls st = .ok st2)
    (hk : qpGet st.qp k = some v) :
    qpGet st2.qp k = some v :=
  (restoreFields_present cls.meta st st2 hpres hok).2.2.1 k v hk

/-- A class whose boolean field `flag` (external key `"q"`) has not been
materialized in the namespace, while the external store already holds
`q="1"`. -/
def c2cls : PSClass :=
  { name := "C2",
    cfg := { url_selfish := false, url_pfx := "", ignore_none_url := true,
             restore_url_on_touch := true, share_url_with := [] },
    meta := [("flag", { default := .vBool false, url_key := some "q",
                        value_map := none, dtype := .tBool })] }

def c2st0 : EngState := { qp := [("q", "1")], ns := [], classAttrs := [], trace := [] }

/-- C2 counterexample: Restore lazily initializes `flag` from `q="1"`
(decoding `true`), and the write path re-encodes it as `"True"`, overwriting
the externally present value `"1"`. -/
theorem restoreUrl_no_overwrite_cex :
    qpGet c2st0.qp "q" = some "1" ∧
    (restoreUrl [] c2cls c2st0).map (fun s => qpGet s.qp "q") = .ok (some "True") := by
  constructor
  · rfl
  · simp [restoreUrl, restoreFields, restoreStep, innerSetattr, syncUrl, initValue,
      convertFromURL, convertCore, workingValue, reverseLookup, nsGet, nsSet,
      qpGet, qpSet, qpDel, qpMem, writeParam, deleteParam, selfishCleanup,
      convertToURL, forwardLookup, c2cls, c2st0, Except.map, Except.bind,
      List.lookup, truthy, pyLower, lowerCh]

def c2wcls : PSClass :=
  { name := "C2W",
    cfg := { url_selfish := false, url_pfx := "", ignore_none_url := true,
             restore_url_on_touch := true, share_url_with := [] },
    meta := [("flag", { default := .vBool false, url_key := some "q",
                        value_map := none, dtype := .tBool })] }

def c2wst0 : EngState :=
  { qp := [("q", "other")], ns := [("flag", .vBool true)], classAttrs := [], trace := [] }

theorem restoreUrl_no_overwrite_witness :
    ((∀ p ∈ c2wcls.meta, ∀ uk, p.2.url_key = some uk →
        (nsGet c2wst0.ns p.1).isSome = true) ∧
      restoreUrl [] c2wcls c2wst0 = .ok c2wst0 ∧
      qpGet c2wst0.qp "q" = some "other") ∧
    (restoreUrl [] c2wcls c2wst0).map (fun s => qpGet s.qp "q") = .ok (some "other") := by
  have hpres : ∀ p ∈ c2wcls.meta, ∀ uk, p.2.url_key = some uk →
      (nsGet c2wst0.ns p.1).isSome = true := by
    intro p hp uk huk
    simp [c2wcls] at hp
    rw [hp]
    rfl
  have hok : restoreUrl [] c2wcls c2wst0 = .ok c2wst0 := by
    simp [restoreUrl, restoreFields, restoreStep, nsGet, qpGet, qpMem,
      c2wcls, c2wst0, List.lookup]
  have hk : qpGet c2wst0.qp "q" = some "other" := rfl
  refine ⟨⟨hpres, hok, hk⟩, ?_⟩
  rw [hok]
  exact congrArg Except.ok (restoreUrl_no_overwrite hpres hok hk)

end StPageState

namespace StPageState

/-- A field declared with an external key contributes its prefixed key to the
class's own-key set. -/
theorem ownKeys_mem_of_mem {cls : PSClass} {p : String × FieldMeta} {uk : String}
    (hp : p ∈ cls.meta) (huk : p.2.url_key = some uk) :
    (cls.cfg.url_pfx ++ uk) ∈ ownKeys cls := by
  refine List.mem_filterMap.mpr ⟨p, hp, ?_⟩
  rw [huk]
  rfl

/-- C1 (amended): with `url_selfish` on, a successful write of a declared
field *that has an external key* — in any configuration, restore-on-touch
included, provided every other field with an external key already holds an
in-memory value — leaves only allowed keys in the external store, preserves
every other allowed key that was present, and ends with the written field's
own prefixed key present unless the value is a `None` being ignored.  (A
write of a declared field with *no* external key performs no cleanup at all;
a `None` write under `ignore_none_url` deletes the written key; and an
uninitialized url field lets Restore's lazy initialization delete an allowed
key — see the counterexample's three parts.) -/
theorem selfish_write_cleanup {reg : Registry} {cls : PSClass} {f : String}
    {fm : FieldMeta} {uk : String} {value : Value} {st st2 : EngState}
    (hsel : cls.cfg.url_selfish = true)
    (hmeta : List.lookup f cls.meta = some fm)
    (huk : fm.url_key = some uk)
    (hnspres : ∀ p ∈ cls.meta, ∀ uk2, p.2.url_key = some uk2 → p.1 ≠ f →
      (nsGet st.ns p.1).isSome = true)
    (hok : outerSetattr reg cls f value st = .ok st2) :
    (∀ k, qpMem st2.qp k = true → k ∈ allowedKeys reg cls) ∧
    (∀ k, k ∈ allowedKeys reg cls → k ≠ cls.cfg.url_pfx ++ uk →
      qpMem st.qp k = true → qpMem st2.qp k = true) ∧
    (¬(value = .vNone ∧ cls.cfg.ignore_none_url = true) →
      qpMem st2.qp (cls.cfg.url_pfx ++ uk) = true) := by
  have hsome : (List.lookup f cls.meta).isSome = true := by
    rw [hmeta]
    rfl
  rw [outerSetattr, if_pos hsome] at hok
  cases hk2 : outerSetattrKnown reg cls f value st with
  | error e =>
      simp only [hk2] at hok
      cases hok
  | ok stX =>
      simp only [hk2] at hok
      obtain rfl := Except.ok.inj hok
      rw [outerSetattrKnown] at hk2
      cases hs : syncUrl reg cls f value { st with ns := nsSet st.ns f value } with
      | error e =>
          simp only [hs] at hk2
          cases hk2
      | ok stY =>
          simp only [hs] at hk2
          have hYsub : ∀ k, qpMem stY.qp k = true → k ∈ allowedKeys reg cls :=
            fun k hk => syncUrl_subset hsel hmeta huk hs hk
          have hYpres : ∀ k, k ∈ allowedKeys reg cls → k ≠ cls.cfg.url_pfx ++ uk →
              qpMem st.qp k = true → qpMem stY.qp k = true := by
            intro k hka hne hkb
            refine syncUrl_preserve hs hka ?_ hkb
            intro fm2 uk2 h1 h2
            rw [hmeta] at h1
            obtain rfl := Option.some.inj h1
            rw [huk] at h2
            obtain rfl := Option.some.inj h2
            exact hne
          have hYwrite : ¬(value = .vNone ∧ cls.cfg.ignore_none_url = true) →
              qpMem stY.qp (cls.cfg.url_pfx ++ uk) = true :=
            fun hnv => syncUrl_writes hmeta huk hs hnv
          have hYns : stY.ns = nsSet st.ns f value := (syncUrl_state hs).1
          by_cases hrt : cls.cfg.restore_url_on_touch = true
          · rw [if_pos hrt] at hk2
            have hpres2 : ∀ p ∈ cls.meta, ∀ uk2, p.2.url_key = some uk2 →
                (nsGet stY.ns p.1).isSome = true := by
              intro p hp uk2 huk2
              rw [hYns]
              by_cases hpf : p.1 = f
              · rw [hpf, nsGet_nsSet_self]
                rfl
              · rw [nsGet_nsSet_ne _ _ _ _ hpf]
                exact hnspres p hp uk2 huk2 hpf
            obtain ⟨hns2, hca2, hpresv, hnew⟩ :=
              restoreFields_present cls.meta stY stX hpres2 hk2
            refine ⟨?_, ?_, ?_⟩
            · intro k hk
              by_cases hkY : qpMem stY.qp k = true
              · exact hYsub k hkY
              · obtain ⟨p, hp, uk2, huk2, rfl, -⟩ :=
                  hnew k (Bool.of_not_eq_true hkY) hk
                exact ownKeys_subset_allowed (ownKeys_mem_of_mem hp huk2)
            · intro k hka hne hkb
              obtain ⟨v', hv'⟩ := Option.isSome_iff_exists.mp (hYpres k hka hne hkb)
              have hkeep := hpresv k v' hv'
              simp [qpMem, hkeep]
            · intro hnv
              obtain ⟨v', hv'⟩ := Option.isSome_iff_exists.mp (hYwrite hnv)
              have hkeep := hpresv _ v' hv'
              simp [qpMem, hkeep]
          · rw [if_neg hrt] at hk2
            obtain rfl := Except.ok.inj hk2
            exact ⟨hYsub, hYpres, hYwrite⟩

end StPageState

namespace StPageState

/-- A selfish class whose only field `n` has no external key; the store
holds an unrelated key `junk`. -/
def c1cls : PSClass :=
  { name := "C1",
    cfg := { url_selfish := true, url_pfx := "", ignore_none_url := true,
             restore_url_on_touch := false, share_url_with := [] },
    meta := [("n", { default := .vInt 0, url_key := none, value_map := none,
                     dtype := .tInt })] }

def c1st0 : EngState := { qp := [("junk", "x")], ns := [], classAttrs := [], trace := [] }

/-- A selfish class in the default configuration (restore-on-touch on) whose
field `page` has external key `pg`, currently present in the store. -/
def c1bcls : PSClass :=
  { name := "C1B",
    cfg := { url_selfish := true, url_pfx := "", ignore_none_url := true,
             restore_url_on_touch := true, share_url_with := [] },
    meta := [("page", { default := .vInt 0, url_key := some "pg",
                        value_map := none, dtype := .tInt })] }

def c1bst0 : EngState :=
  { qp := [("pg", "1")], ns := [("page", .vInt 1)], classAttrs := [], trace := [] }

/-- A selfish prefixed class (default configuration) whose url field `q` has
no in-memory value while its prefixed key `pf_q` is present. -/
def c1ccls : PSClass :=
  { name := "C1C",
    cfg := { url_selfish := true, url_pfx := "pf_", ignore_none_url := true,
             restore_url_on_touch := true, share_url_with := [] },
    meta := [("a", { default := .vInt 0, url_key := some "a", value_map := none,
                     dtype := .tInt }),
             ("q", { default := .vNone, url_key := some "q", value_map := none,
                     dtype := .tInt })] }

def c1cst0 : EngState :=
  { qp := [("pf_q", "7")], ns := [("a", .vInt 1)], classAttrs := [], trace := [] }

/-- C1 counterexample, in three parts.  (1) A successful write of the
declared field `n`, which has no external key, performs no cleanup: the
non-allowed key `junk` survives, because `_sync_url` returns before the
selfish cleanup.  (2) Writing `None` under `ignore_none_url` deletes the
written field's own prefixed key `pg`, which was present before the write.
(3) With an uninitialized url field `q`, the write's restore pass lazily
initializes `q` through the write path and deletes the allowed key `pf_q`
that was present before. -/
theorem selfish_write_cleanup_cex :
    (¬ ("junk" ∈ allowedKeys [] c1cls) ∧
      (outerSetattr [] c1cls "n" (.vInt 5) c1st0).map (fun s => qpMem s.qp "junk")
        = .ok true) ∧
    ("pg" ∈ allowedKeys [] c1bcls ∧ qpMem c1bst0.qp "pg" = true ∧
      (outerSetattr [] c1bcls "page" .vNone c1bst0).map (fun s => qpMem s.qp "pg")
        = .ok false) ∧
    ("pf_q" ∈ allowedKeys [] c1ccls ∧ qpMem c1cst0.qp "pf_q" = true ∧
      (outerSetattr [] c1ccls "a" (.vInt 2) c1cst0).map (fun s => qpMem s.qp "pf_q")
        = .ok false) := by
  refine ⟨⟨?_, ?_⟩, ⟨?_, rfl, ?_⟩, ⟨?_, rfl, ?_⟩⟩
  · simp [allowedKeys, ownKeys, c1cls]
  · simp [outerSetattr, outerSetattrKnown, restoreUrl, restoreFields, restoreStep,
      innerSetattr, syncUrl, initValue, selfishCleanup, allowedKeys, ownKeys,
      convertFromURL, convertCore, workingValue, reverseLookup, forwardLookup,
      convertToURL, qpGet, qpSet, qpDel, qpMem, writeParam, deleteParam, nsGet,
      nsSet, natToStr, natChars, intToStr, digChar, Except.map, List.lookup, c1cls, c1st0]
  · simp [allowedKeys, ownKeys, c1bcls]
  · simp [outerSetattr, outerSetattrKnown, restoreUrl, restoreFields, restoreStep,
      innerSetattr, syncUrl, initValue, selfishCleanup, allowedKeys, ownKeys,
      convertFromURL, convertCore, workingValue, reverseLookup, forwardLookup,
      convertToURL, qpGet, qpSet, qpDel, qpMem, writeParam, deleteParam, nsGet,
      nsSet, natToStr, natChars, intToStr, digChar, Except.map, List.lookup, c1bcls, c1bst0]
  · simp [allowedKeys, ownKeys, c1ccls]
  · simp [outerSetattr, outerSetattrKnown, restoreUrl, restoreFields, restoreStep,
      innerSetattr, syncUrl, initValue, selfishCleanup, allowedKeys, ownKeys,
      convertFromURL, convertCore, workingValue, reverseLookup, forwardLookup,
      convertToURL, qpGet, qpSet, qpDel, qpMem, writeParam, deleteParam, nsGet,
      nsSet, natToStr, natChars, intToStr, digChar, Except.map, List.lookup, c1ccls, c1cst0]

def c1wfm : FieldMeta :=
  { default := .vInt 0, url_key := some "pg", value_map := none, dtype := .tInt }

/-- A selfish class in the default restore-on-touch configuration with two
url fields, the second already initialized in memory. -/
def c1wcls : PSClass :=
  { name := "C1W",
    cfg := { url_selfish := true, url_pfx := "", ignore_none_url := true,
             restore_url_on_touch := true, share_url_with := [] },
    meta := [("page", c1wfm),
             ("q", { default := .vInt 0, url_key := some "qq", value_map := none,
                     dtype := .tInt })] }

def c1wst0 : EngState :=
  { qp := [("junk", "x"), ("pg", "old")], ns := [("q", .vInt 3)], classAttrs := [],
    trace := [] }

def c1wst1 : EngState :=
  { qp := [("pg", "5"), ("qq", "3")], ns := [("q", .vInt 3), ("page", .vInt 5)],
    classAttrs := [],
    trace := [.delParam "junk", .setParam "pg" "5", .setParam "qq" "3"] }

theorem selfish_write_cleanup_witness :
    (c1wcls.cfg.url_selfish = true ∧
      List.lookup "page" c1wcls.meta = some c1wfm ∧ c1wfm.url_key = some "pg" ∧
      (∀ p ∈ c1wcls.meta, ∀ uk2, p.2.url_key = some uk2 → p.1 ≠ "page" →
        (nsGet c1wst0.ns p.1).isSome = true) ∧
      outerSetattr [] c1wcls "page" (.vInt 5) c1wst0 = .ok c1wst1) ∧
    ((∀ k, qpMem c1wst1.qp k = true → k ∈ allowedKeys [] c1wcls) ∧
      (∀ k, k ∈ allowedKeys [] c1wcls → k ≠ c1wcls.cfg.url_pfx ++ "pg" →
        qpMem c1wst0.qp k = true → qpMem c1wst1.qp k = true) ∧
      (¬(Value.vInt 5 = .vNone ∧ c1wcls.cfg.ignore_none_url = true) →
        qpMem c1wst1.qp (c1wcls.cfg.url_pfx ++ "pg") = true)) := by
  have hmeta : List.lookup "page" c1wcls.meta = some c1wfm := by
    simp [c1wcls, List.lookup]
  have hnspres : ∀ p ∈ c1wcls.meta, ∀ uk2, p.2.url_key = some uk2 → p.1 ≠ "page" →
      (nsGet c1wst0.ns p.1).isSome = true := by
    intro p hp uk2 huk2 hne
    simp [c1wcls] at hp
    rcases hp with h | h
    · rw [h] at hne
      exact absurd rfl hne
    · rw [h]
      rfl
  have hok : outerSetattr [] c1wcls "page" (.vInt 5) c1wst0 = .ok c1wst1 := by
    simp [outerSetattr, outerSetattrKnown, restoreUrl, restoreFields, restoreStep,
      innerSetattr, syncUrl, initValue, selfishCleanup, allowedKeys, ownKeys,
      convertFromURL, convertCore, workingValue, reverseLookup, forwardLookup,
      convertToURL, qpGet, qpSet, qpDel, qpMem, writeParam, deleteParam, nsGet,
      nsSet, natToStr, natChars, intToStr, digChar, Except.map, List.lookup, c1wcls, c1wfm, c1wst0, c1wst1]
  exact ⟨⟨rfl, hmeta, rfl, hnspres, hok⟩,
    selfish_write_cleanup rfl hmeta rfl hnspres hok⟩


end StPageState

namespace StPageState

/-- C3 (amended): for every supported declared type and well-typed value
containing no NaN, decode of encode succeeds and the result is equal to the
original under Python `==` (with no value_map).  (A NaN value round-trips to a
value Python `==` rejects — see the counterexample.) -/
theorem convert_roundtrip {ty : PyType} {v : Value} {key : String}
    (hwt : WellTyped ty v = true) (hnan : hasNaN v = false) :
    ∃ s, convertToURL key v none = .ok s ∧
      (convertFromURL key s ty none).map (fun w => pyEq w v) = .ok true := by
  obtain ⟨s, hs⟩ := convertToURL_none_total v key
  refine ⟨s, hs, ?_⟩
  rw [convertFromURL_convertToURL ty v key s hwt hs]
  simp [Except.map, pyEq_refl v hnan]

/-- C3 counterexample: a NaN float is a well-typed `float` value; it encodes
to `"nan"` and decodes back to NaN, but Python `==` rejects `nan == nan`, so
`decode(encode(v)) == v` fails. -/
theorem convert_roundtrip_cex :
    WellTyped .tFloat (.vFloat .nan) = true ∧
    convertToURL "x" (.vFloat .nan) none = .ok "nan" ∧
    (convertFromURL "x" "nan" .tFloat none).map (fun w => pyEq w (.vFloat .nan))
      = .ok false := by
  refine ⟨rfl, ?_, ?_⟩
  · simp [convertToURL, pyFloatStr, forwardLookup]
  · simp [convertFromURL, convertCore, workingValue, parsePyFloat, Except.map,
      pyEq, pyFloatEq]

theorem convert_roundtrip_witness :
    (WellTyped .tInt (.vInt 5) = true ∧ hasNaN (.vInt 5) = false) ∧
    (∃ s, convertToURL "page" (.vInt 5) none = .ok s ∧
      (convertFromURL "page" s .tInt none).map (fun w => pyEq w (.vInt 5))
        = .ok true) :=
  ⟨⟨rfl, rfl⟩, convert_roundtrip rfl rfl⟩

end StPageState

namespace StPageState

/-- A class with `url_prefix = "pf_"` and an `int` field `page` (external key
`"page"`, default `1`); the external store holds the prefixed key
`pf_page = "5"`. -/
def c4cls : PSClass :=
  { name := "P",
    cfg := { url_selfish := false, url_pfx := "pf_", ignore_none_url := true,
             restore_url_on_touch := false, share_url_with := [] },
    meta := [("page", { default := .vInt 1, url_key := some "page",
                        value_map := none, dtype := .tInt })] }

def c4st0 : EngState :=
  { qp := [("pf_page", "5")], ns := [], classAttrs := [], trace := [] }

/-- C4: Lazy Initialize consults the external store under the *raw* external
key, not the prefixed one (`_initialize_attribute` checks
`metadata["url_key"] in st.query_params`), so with prefix `"pf_"` and
`pf_page="5"` present, the first read of `page` misses the stored value,
resolves to the default `1`, and the ensuing write path overwrites
`pf_page` with `"1"`. -/
theorem lazy_init_ignores_prefix :
    (outerGetattr [] c4cls "page" c4st0).map (fun r => (r.1, r.2.qp))
      = .ok (.vInt 1, [("pf_page", "1")]) := by
  simp [outerGetattr, outerSetattrKnown, initValue, syncUrl, selfishCleanup,
    allowedKeys, ownKeys, convertFromURL, convertCore, workingValue,
    reverseLookup, forwardLookup, convertToURL, qpGet, qpSet, qpDel, qpMem,
    writeParam, deleteParam, nsGet, nsSet, natToStr, natChars, intToStr,
    digChar, c4cls, c4st0, Except.map, List.lookup]

end StPageState

namespace StPageState

def c7cls : PSClass :=
  { name := "B",
    cfg := { url_selfish := false, url_pfx := "", ignore_none_url := true,
             restore_url_on_touch := false, share_url_with := [] },
    meta := [("value", { default := .vInt 0, url_key := none, value_map := none,
                          dtype := .tInt })] }

def c7st0 : EngState :=
  { qp := [], ns := [("value", .vInt 7)], classAttrs := [], trace := [] }

/-- C7: `bind` takes no `value` argument and seeds the widget entry
unconditionally — an existing entry `B_value_widget = 42` is overwritten
with the field's current resolved value `7` instead of being left alone. -/
theorem bind_overwrites_widget_entry :
    (bind [] c7cls "value" [("B_value_widget", .vInt 42)] c7st0).map
        (fun r => (r.1, r.2.1))
      = .ok ("B_value_widget", [("B_value_widget", .vInt 7)]) := by
  simp [bind, outerGetattr, nsGet, nsSet, c7cls, c7st0, Except.map, List.lookup]

end StPageState

namespace StPageState

/-- C8 (amended): reading an undeclared attribute raises an
attribute-not-found error, but *assigning* one does not: the write succeeds
silently and stores the value as an ordinary class attribute. -/
theorem unknown_attribute_behavior {reg : Registry} {cls : PSClass} {key : String}
    {value : Value} {st : EngState}
    (hnone : List.lookup key cls.meta = none) :
    outerGetattr reg cls key st = .error (.attrNotFound cls.name key) ∧
    outerSetattr reg cls key value st
      = .ok { st with classAttrs := nsSet st.classAttrs key value } := by
  constructor
  · simp [outerGetattr, hnone]
  · simp [outerSetattr, hnone]

def c8cls : PSClass :=
  { name := "C8",
    cfg := { url_selfish := false, url_pfx := "", ignore_none_url := true,
             restore_url_on_touch := false, share_url_with := [] },
    meta := [("page", { default := .vInt 0, url_key := none, value_map := none,
                        dtype := .tInt })] }

def c8st0 : EngState := { qp := [], ns := [], classAttrs := [], trace := [] }

/-- C8 counterexample: assigning the undeclared name `nope` does not raise —
it silently succeeds and stores the value on the class. -/
theorem unknown_attribute_behavior_cex :
    outerSetattr [] c8cls "nope" (.vInt 3) c8st0
      = .ok { qp := [], ns := [], classAttrs := [("nope", .vInt 3)], trace := [] } := by
  simp [outerSetattr, nsSet, c8cls, c8st0, List.lookup]

theorem unknown_attribute_behavior_witness :
    List.lookup "ghost" c8cls.meta = none ∧
    (outerGetattr [] c8cls "ghost" c8st0 = .error (.attrNotFound c8cls.name "ghost") ∧
      outerSetattr [] c8cls "ghost" (.vBool true) c8st0
        = .ok { c8st0 with classAttrs := nsSet c8st0.classAttrs "ghost" (.vBool true) }) := by
  have hnone : List.lookup "ghost" c8cls.meta = none := by
    simp [c8cls, List.lookup]
  exact ⟨hnone, unknown_attribute_behavior hnone⟩

end StPageState

namespace StPageState

theorem syncUrl_none_total {reg : Registry} {cls : PSClass} {f : String}
    {value : Value} {st : EngState}
    (hvm : ∀ p ∈ cls.meta, p.2.value_map = none) :
    ∃ st2, syncUrl reg cls f value st = .ok st2 := by
  cases hres : syncUrl reg cls f value st with
  | ok st2 => exact ⟨st2, rfl⟩
  | error e =>
      exfalso
      cases hmeta : List.lookup f cls.meta with
      | none =>
          simp [syncUrl, hmeta] at hres
      | some fm =>
          have hv : fm.value_map = none := hvm (f, fm) (lookup_mem hmeta)
          cases huk : fm.url_key with
          | none =>
              simp [syncUrl, hmeta, huk] at hres
          | some uk =>
              simp only [syncUrl, hmeta, huk, hv] at hres
              repeat' split at hres
              all_goals try cases hres
              all_goals rename_i heq
              all_goals obtain ⟨s, hs⟩ := convertToURL_none_total _ f
              all_goals rw [hs] at heq
              all_goals cases heq

end StPageState

namespace StPageState

/-- C6 (amended): a failed conversion raises a structured error carrying the
field key, the *working* value (the external string after `value_map`
translation — not necessarily the raw string, see the counterexample), the
target type and a cause; Lazy Initialize catches it and resolves the field to
its default, and the decode error never propagates: whenever the ensuing
write-back of the default completes, the read returns the default.  (The
write-back can itself fail, but only through the separate encode corner of a
`value_map` lookup on an unhashable value — the counterexample's second
part.) -/
theorem decode_error_handling {reg : Registry} {cls : PSClass} {f : String}
    {fm : FieldMeta} {st st2 : EngState} {uk raw : String} {e : DecodeError}
    (hmeta : List.lookup f cls.meta = some fm)
    (habs : nsGet st.ns f = none)
    (hukq : fm.url_key = some uk)
    (hraw : qpGet st.qp uk = some raw)
    (herr : convertFromURL f raw fm.dtype fm.value_map = .error e)
    (hwb : outerSetattrKnown reg cls f fm.default st = .ok st2) :
    e.key = f ∧ e.targetType = fm.dtype ∧ e.raw = workingValue fm.value_map raw ∧
    outerGetattr reg cls f st = .ok (fm.default, st2) := by
  obtain ⟨h1, h2, h3⟩ := convertCore_error_payload f fm.dtype
    (workingValue fm.value_map raw) e herr
  refine ⟨h1, h2, h3, ?_⟩
  have hval : initValue fm f st = fm.default := by
    simp [initValue, hukq, hraw, herr]
  simp [outerGetattr, hmeta, habs, hval, hwb]

end StPageState

namespace StPageState

/-- A field whose `value_map` coexists with an unhashable default (a tuple
containing a list): the decode failure is caught, but the write-back of the
default fails in the `value_map` lookup. -/
def c6bcls : PSClass :=
  { name := "C6B",
    cfg := { url_selfish := false, url_pfx := "", ignore_none_url := true,
             restore_url_on_touch := false, share_url_with := [] },
    meta := [("g", { default := .vTuple [.vList []],
                     url_key := some "k",
                     value_map := some [(.vInt 0, "z")], dtype := .tInt })] }

def c6bst0 : EngState := { qp := [("k", "bad")], ns := [], classAttrs := [], trace := [] }

/-- C6 counterexample, in two parts.  (1) With a `value_map` sending the
value `"x"` to the URL string `"active"`, decoding `"active"` as `int` fails
*after* translation and the structured error carries the translated value
`"x"`, not the raw external string `"active"`.  (2) The read does not always
succeed: after the decode failure is caught, the write-back of the default
can itself raise — here the `value_map` membership test on the unhashable
default `([],)` — and that error propagates out of the read. -/
theorem decode_error_handling_cex :
    (convertFromURL "status" "active" .tInt (some [(.vStr "x", "active")])
        = .error ⟨"status", .vStr "x", .tInt, "invalid literal for int()"⟩ ∧
      ¬ ((Value.vStr "x") = .vStr "active")) ∧
    (convertFromURL "g" "bad" .tInt (some [(.vInt 0, "z")])
        = .error ⟨"g", .vStr "bad", .tInt, "invalid literal for int()"⟩ ∧
      outerGetattr [] c6bcls "g" c6bst0
        = .error (.decodeErr ⟨"g", .vTuple [.vList []], .tStr,
            "unhashable type in value_map lookup"⟩)) := by
  refine ⟨⟨?_, by simp⟩, ?_, ?_⟩
  · simp [convertFromURL, convertCore, workingValue, reverseLookup, parseInt,
      parseNatList, isDigitCh]
  · simp [convertFromURL, convertCore, workingValue, reverseLookup, parseInt,
      parseNatList, isDigitCh]
  · simp [outerGetattr, outerSetattrKnown, innerSetattr, syncUrl, initValue,
      convertFromURL, convertCore, workingValue, reverseLookup, forwardLookup,
      convertToURL, encodeSeq, encodeToken, encTokenAux, isinstHashable,
      deepHashable, deepHashableList, parseInt, parseNatList, isDigitCh,
      qpGet, qpMem, nsGet, nsSet, c6bcls, c6bst0, List.lookup]

def c6wfm : FieldMeta :=
  { default := .vInt 1, url_key := some "q",
    value_map := some [(.vInt 1, "active")], dtype := .tInt }

/-- A value-mapped field in the default configuration (selfish, restore on):
the external value `zzz` fails to decode as `int`. -/
def c6wcls : PSClass :=
  { name := "C6W",
    cfg := { url_selfish := true, url_pfx := "", ignore_none_url := true,
             restore_url_on_touch := true, share_url_with := [] },
    meta := [("status", c6wfm)] }

def c6wst0 : EngState := { qp := [("q", "zzz")], ns := [], classAttrs := [], trace := [] }

def c6wst1 : EngState :=
  { qp := [("q", "active")], ns := [("status", .vInt 1)], classAttrs := [],
    trace := [.setParam "q" "active"] }

theorem decode_error_handling_witness :
    (List.lookup "status" c6wcls.meta = some c6wfm ∧
      nsGet c6wst0.ns "status" = none ∧
      c6wfm.url_key = some "q" ∧
      qpGet c6wst0.qp "q" = some "zzz" ∧
      convertFromURL "status" "zzz" c6wfm.dtype c6wfm.value_map
        = .error ⟨"status", .vStr "zzz", .tInt, "invalid literal for int()"⟩ ∧
      outerSetattrKnown [] c6wcls "status" c6wfm.default c6wst0 = .ok c6wst1) ∧
    ((DecodeError.mk "status" (.vStr "zzz") .tInt "invalid literal for int()").key
        = "status" ∧
      (DecodeError.mk "status" (.vStr "zzz") .tInt "invalid literal for int()").targetType
        = c6wfm.dtype ∧
      (DecodeError.mk "status" (.vStr "zzz") .tInt "invalid literal for int()").raw
        = workingValue c6wfm.value_map "zzz" ∧
      outerGetattr [] c6wcls "status" c6wst0 = .ok (c6wfm.default, c6wst1)) := by
  have hmeta : List.lookup "status" c6wcls.meta = some c6wfm := by
    simp [c6wcls, List.lookup]
  have herr : convertFromURL "status" "zzz" c6wfm.dtype c6wfm.value_map
      = .error ⟨"status", .vStr "zzz", .tInt, "invalid literal for int()"⟩ := by
    simp [convertFromURL, convertCore, workingValue, reverseLookup, c6wfm,
      parseInt, parseNatList, isDigitCh]
  have hwb : outerSetattrKnown [] c6wcls "status" c6wfm.default c6wst0 = .ok c6wst1 := by
    simp [outerSetattrKnown, restoreUrl, restoreFields, restoreStep, innerSetattr,
      syncUrl, initValue, selfishCleanup, allowedKeys, ownKeys, convertFromURL,
      convertCore, workingValue, reverseLookup, forwardLookup, convertToURL,
      beqValue, isinstHashable, deepHashable, qpGet, qpSet, qpDel, qpMem,
      writeParam, deleteParam, nsGet, nsSet, natToStr, natChars, intToStr,
      digChar, c6wcls, c6wfm, c6wst0, c6wst1, List.lookup]
  exact ⟨⟨hmeta, rfl, rfl, rfl, herr, hwb⟩,
    decode_error_handling hmeta rfl rfl rfl herr hwb⟩

end StPageState

namespace StPageState

/-- C9: when the recorded session identity differs from the one resolved on
the current pass, the persistence adapter wipes the in-memory namespaces
before loading, records the new identity, and every value visible afterwards
comes from the remote store under the *new* identity, with fields whose
prefixed external key is currently present in the URL excluded from the
load. -/
theorem session_identity_change {reg : Registry} {redis : RedisStore}
    {sid1 sid2 : String} {nss : List (String × Ns)} {qp : QP} {ss2 : SessionSt}
    (hne : sid1 ≠ sid2)
    (hnodup : (redis.map Prod.fst).Nodup)
    (hfnodup : ∀ e ∈ redis, (e.2.map Prod.fst).Nodup)
    (hss : sessionEntry reg redis sid2 qp { marker := some sid1, namespaces := nss }
      = ss2) :
    ss2.marker = some sid2 ∧
    ∀ c f v, sessionField ss2 c f = some v →
      ∃ fields, redisGet redis sid2 c = some fields ∧ nsGet fields f = some v ∧
        ∀ cls fm uk, List.lookup c reg = some cls →
          List.lookup f cls.meta = some fm → fm.url_key = some uk →
          qpMem qp (cls.cfg.url_pfx ++ uk) = false := by
  subst hss
  have hwipe : sessionEntry reg redis sid2 qp { marker := some sid1, namespaces := nss }
      = { marker := some sid2,
          namespaces := loadLoop reg qp [] (loadAll redis sid2) [] } := by
    simp [sessionEntry, hne]
  rw [hwipe]
  refine ⟨rfl, ?_⟩
  intro c f v hsf
  unfold sessionField at hsf
  cases hns : nssGet (loadLoop reg qp [] (loadAll redis sid2) []) c with
  | none =>
      rw [hns] at hsf
      cases hsf
  | some ns0 =>
      rw [hns] at hsf
      rcases loadLoop_origin reg qp [] (loadAll redis sid2) []
          (loadAll_nodup hnodup)
          (fun c2 h2 => by simp [nssGet] at h2) c ns0 hns with
        habs | ⟨fields, hmem, hfil⟩
      · exact absurd habs (by simp [nssGet])
      · have hred := loadAll_redisGet hnodup hmem
        have hfn : (fields.map Prod.fst).Nodup :=
          hfnodup ((sid2, c), fields) (mem_loadAll hmem).1
        subst hfil
        obtain ⟨h1, h2⟩ := filterLoaded_sound hfn hsf
        exact ⟨fields, hred, h1, h2⟩

end StPageState

namespace StPageState

def c9redis : RedisStore := [(("bob", "C"), [("x", .vInt 9)])]

def c9ss0 : SessionSt := { marker := some "anon", namespaces := [("C", [("x", .vInt 1)])] }

def c9ss1 : SessionSt := { marker := some "bob", namespaces := [("C", [("x", .vInt 9)])] }

theorem session_identity_change_witness :
    (("anon" : String) ≠ "bob" ∧
      (c9redis.map Prod.fst).Nodup ∧
      (∀ e ∈ c9redis, (e.2.map Prod.fst).Nodup) ∧
      sessionEntry [] c9redis "bob" [] c9ss0 = c9ss1) ∧
    (c9ss1.marker = some "bob" ∧
      ∀ c f v, sessionField c9ss1 c f = some v →
        ∃ fields, redisGet c9redis "bob" c = some fields ∧ nsGet fields f = some v ∧
          ∀ cls fm uk, List.lookup c ([] : Registry) = some cls →
            List.lookup f cls.meta = some fm → fm.url_key = some uk →
            qpMem ([] : QP) (cls.cfg.url_pfx ++ uk) = false) := by
  have hne : ("anon" : String) ≠ "bob" := by
    simp
  have hnodup : (c9redis.map Prod.fst).Nodup := by
    simp [c9redis]
  have hfnodup : ∀ e ∈ c9redis, (e.2.map Prod.fst).Nodup := by
    intro e he
    simp [c9redis] at he
    rw [he]
    simp
  have hss : sessionEntry [] c9redis "bob" [] c9ss0 = c9ss1 := by
    simp [sessionEntry, loadLoop, loadAll, filterLoaded, mergeLoaded, nssGet,
      nssSet, urlFieldsOf, ownKeys, qpMem, qpGet, c9redis, c9ss0, c9ss1,
      List.lookup, List.filter]
  exact ⟨⟨hne, hnodup, hfnodup, hss⟩,
    session_identity_change hne hnodup hfnodup hss⟩

end StPageState

namespace StPageState

/-- C10: remote-store state serialization is lossless on mappings of
well-formed values — JSON primitives, temporal values, bytes and collections,
with no dict carrying a `__type__` tag: deserializing the serialized form
reconstructs the exact same mapping, and Python `==` accepts it. -/
theorem serialize_roundtrip {d : List (String × Value)}
    (h : wfState (.vDict d) = true) :
    deserialize_state (serialize_state d) = .vDict d ∧
    pyEq (deserialize_state (serialize_state d)) (.vDict d) = true := by
  have he : deserialize_state (serialize_state d) = .vDict d :=
    jsonHookWalk_prepareForJson (.vDict d) h
  refine ⟨he, ?_⟩
  rw [he]
  exact pyEq_refl _ (wfState_hasNaN _ h)

def c10d : List (String × Value) :=
  [("n", .vInt 3), ("t", .vTuple [.vStr "x", .vBool true]),
   ("bs", .vBytes [104, 105]), ("when", .vDate "2024-01-02"),
   ("s", .vSet [.vFloat (.finite "0.5")]), ("z", .vNone)]

theorem serialize_roundtrip_witness :
    wfState (.vDict c10d) = true ∧
    (deserialize_state (serialize_state c10d) = .vDict c10d ∧
      pyEq (deserialize_state (serialize_state c10d)) (.vDict c10d) = true) := by
  have h : wfState (.vDict c10d) = true := by
    simp [wfState, wfStateEntries, wfStateList, nsGet, c10d]
  exact ⟨h, serialize_roundtrip h⟩

end StPageState
